import Mathlib

/-!
# Verification of the Time-table-generator scheduling core

This file gives a shallow embedding, in Lean 4, of the scheduling core of the
Time-table-generator repository (Node.js), and proves or refutes the frozen
claims about it.

The embedded code:
* the slot catalog, continuous time blocks and the duration matcher
  `findSlotsForDuration` (config/timetableGenerator.js, also duplicated in
  server.js);
* the class timetable generator `generateTimetableForHalf` /
  `generateTimetableWithSemesterSplit` with elective-slot reservation,
  section grouping and the semester-half partition
  (config/timetableGenerator.js);
* the exam date generator `generateExamDates` and the date-range exam
  scheduler `generateExamSchedule` (config/examScheduler.js).

Modelling conventions:
* JS `Math.floor(Math.random() * n)` draws are modelled by an oracle
  `g : Nat → Nat` together with a running counter: the k-th draw in range
  `n > 0` is `g k % n`.  All invariant theorems hold for every oracle, which
  captures every possible sequence of random choices.
* JS objects used as string-keyed hash sets are modelled as lists of the
  marked keys; the nested `obj[key][day][slot]` table is modelled as a list
  of `(key, day, slot)` triples.
* JS numbers that hold integral minute counts are modelled as `Int`
  (subtraction appears), counts as `Nat`.
-/

namespace TimetableGen

/-! ## Slot catalog and duration matcher (config/timetableGenerator.js) -/

/-- The 15 usable time slots of the catalog (break slots excluded), exactly
the `timeSlots` constant of config/timetableGenerator.js. -/
def timeSlots : List String :=
  [ "09:00 - 10:00", "10:00 - 10:30", "10:45 - 11:00", "11:00 - 12:00",
    "12:00 - 12:15", "12:15 - 12:30", "12:30 - 13:15", "14:00 - 14:30",
    "14:30 - 15:30", "15:30 - 15:40", "15:40 - 16:00", "16:00 - 16:30",
    "16:30 - 17:10", "17:10 - 17:30", "17:30 - 18:30" ]

/-- The five working days, the `days` constant. -/
def days : List String :=
  ["MONDAY", "TUESDAY", "WEDNESDAY", "THURSDAY", "FRIDAY"]

/-- Value of a decimal digit character. -/
def digitVal (c : Char) : Nat := c.toNat - '0'.toNat

/-- Start and end minutes of a slot string of the shape `"HH:MM - HH:MM"`.
This mirrors `getSlotDuration`'s parsing (`split(' - ')`, `split(':')`,
`Number`) on the well-formed slot labels of the catalog; every slot of
`timeSlots` has exactly this shape.  Other strings yield `none`. -/
def slotTimes (slot : String) : Option (Nat × Nat) :=
  match slot.data with
  | [h1, h2, ':', m1, m2, ' ', '-', ' ', h3, h4, ':', m3, m4] =>
      some ((10 * digitVal h1 + digitVal h2) * 60 + 10 * digitVal m1 + digitVal m2,
            (10 * digitVal h3 + digitVal h4) * 60 + 10 * digitVal m3 + digitVal m4)
  | _ => none

/-- `getSlotDuration(slot)` — duration of a slot in minutes
(end minutes − start minutes). -/
def getSlotDuration (slot : String) : Int :=
  match slotTimes slot with
  | some (s, e) => (e : Int) - (s : Int)
  | none => 0

/-- A continuous block of slots (no break inside). -/
structure TimeBlock where
  name : String
  slots : List String
deriving DecidableEq, Repr

/-- `getContinuousTimeBlocks()` — the three gap-free blocks of the catalog. -/
def getContinuousTimeBlocks : List TimeBlock :=
  [ { name := "morning",
      slots := ["09:00 - 10:00", "10:00 - 10:30"] },
    { name := "late-morning",
      slots := ["10:45 - 11:00", "11:00 - 12:00", "12:00 - 12:15",
                "12:15 - 12:30", "12:30 - 13:15"] },
    { name := "afternoon",
      slots := ["14:00 - 14:30", "14:30 - 15:30", "15:30 - 15:40",
                "15:40 - 16:00", "16:00 - 16:30", "16:30 - 17:10",
                "17:10 - 17:30", "17:30 - 18:30"] } ]

/-- A slot combination returned by the duration matcher. -/
structure SlotCombination where
  slots : List String
  totalMinutes : Int
  block : String
deriving DecidableEq, Repr

/-- Inner loop of `findSlotsForDuration`: starting from a given accumulated
prefix, keep appending consecutive slots; record a combination as soon as the
running total is within ±5 of the target, abandon once it exceeds target+5. -/
def scanSlots (blockName : String) (target : Int) :
    List String → Int → List String → Option SlotCombination
  | _, _, [] => none
  | acc, total, s :: rest =>
      let total' := total + getSlotDuration s
      let acc' := acc ++ [s]
      if (total' - target).natAbs ≤ 5 then
        some { slots := acc', totalMinutes := total', block := blockName }
      else if total' > target + 5 then
        none
      else
        scanSlots blockName target acc' total' rest

/-- All combinations contributed by one block: one scan per start index. -/
def blockCombinations (target : Int) (b : TimeBlock) : List SlotCombination :=
  (List.range b.slots.length).filterMap
    (fun startIdx => scanSlots b.name target [] 0 (b.slots.drop startIdx))

/-- `findSlotsForDuration(targetMinutes)` — all consecutive-slot combinations
inside continuous blocks whose total duration is within ±5 minutes of the
target. -/
def findSlotsForDuration (target : Int) : List SlotCombination :=
  (getContinuousTimeBlocks.map (blockCombinations target)).join

/-- Sum of slot durations of a list of slots. -/
def sumDurations (slots : List String) : Int :=
  (slots.map getSlotDuration).sum

theorem scanSlots_spec (blockName : String) (target : Int) :
    ∀ (rest : List String) (acc : List String) (total : Int) (combo : SlotCombination),
      scanSlots blockName target acc total rest = some combo →
      ∃ k, 0 < k ∧ combo.slots = acc ++ rest.take k ∧
        combo.totalMinutes = total + sumDurations (rest.take k) ∧
        (combo.totalMinutes - target).natAbs ≤ 5 ∧
        combo.block = blockName := by
  intro rest
  induction rest with
  | nil => intro acc total combo h; simp [scanSlots] at h
  | cons s rest ih =>
      intro acc total combo h
      simp only [scanSlots] at h
      by_cases h1 : ((total + getSlotDuration s) - target).natAbs ≤ 5
      · rw [if_pos h1] at h
        injection h with h
        subst h
        exact ⟨1, by norm_num, by simp, by simp [sumDurations], by simpa using h1, rfl⟩
      · rw [if_neg h1] at h
        by_cases h2 : total + getSlotDuration s > target + 5
        · rw [if_pos h2] at h; simp at h
        · rw [if_neg h2] at h
          obtain ⟨k, hk, hslots, htotal, habs, hblock⟩ := ih _ _ _ h
          refine ⟨k + 1, by omega, ?_, ?_, habs, hblock⟩
          · simpa [List.take_succ_cons] using hslots
          · simp only [List.take_succ_cons] at htotal ⊢
            simp only [sumDurations, List.map_cons, List.sum_cons] at htotal ⊢
            omega

/-- C6 helper: any member of `blockCombinations` is an infix of the block. -/
theorem blockCombinations_spec (target : Int) (b : TimeBlock)
    (combo : SlotCombination) (h : combo ∈ blockCombinations target b) :
    List.IsInfix combo.slots b.slots ∧
    combo.totalMinutes = sumDurations combo.slots ∧
    (combo.totalMinutes - target).natAbs ≤ 5 ∧
    combo.block = b.name := by
  simp only [blockCombinations, List.mem_filterMap, List.mem_range] at h
  obtain ⟨startIdx, _, hscan⟩ := h
  obtain ⟨k, hk, hslots, htotal, habs, hblock⟩ := scanSlots_spec b.name target _ _ _ _ hscan
  simp only [List.nil_append] at hslots
  refine ⟨?_, ?_, habs, hblock⟩
  · rw [hslots]
    have hpre := List.take_prefix k (b.slots.drop startIdx)
    exact hpre.isInfix.trans (b.slots.drop_suffix startIdx).isInfix
  · rw [hslots]
    simpa using htotal

/-- **C6.** Every combination returned by `findSlotsForDuration t` is a
contiguous sub-sequence (infix) of a single continuous block — it never
straddles a break — and its `totalMinutes` (which is the sum of its slots'
durations) lies within ±5 minutes of the target `t`. -/
theorem c6_duration_matcher (t : Int) (combo : SlotCombination)
    (h : combo ∈ findSlotsForDuration t) :
    (∃ b ∈ getContinuousTimeBlocks, List.IsInfix combo.slots b.slots) ∧
    combo.totalMinutes = sumDurations combo.slots ∧
    (combo.totalMinutes - t).natAbs ≤ 5 := by
  simp only [findSlotsForDuration, List.mem_join, List.mem_map] at h
  obtain ⟨l, ⟨b, hb, rfl⟩, hcombo⟩ := h
  obtain ⟨hinfx, htotal, habs, _⟩ := blockCombinations_spec t b combo hcombo
  exact ⟨⟨b, hb, hinfx⟩, htotal, habs⟩

/-- Witness for C6: a concrete 90-minute combination. -/
theorem c6_duration_matcher_witness :
    ({ slots := ["09:00 - 10:00", "10:00 - 10:30"], totalMinutes := 90,
       block := "morning" } : SlotCombination) ∈ findSlotsForDuration 90 ∧
    ((∃ b ∈ getContinuousTimeBlocks,
        List.IsInfix (["09:00 - 10:00", "10:00 - 10:30"] : List String) b.slots) ∧
      (90 : Int) = sumDurations ["09:00 - 10:00", "10:00 - 10:30"] ∧
      ((90 : Int) - 90).natAbs ≤ 5) :=
  ⟨by decide, c6_duration_matcher 90
    { slots := ["09:00 - 10:00", "10:00 - 10:30"], totalMinutes := 90,
      block := "morning" } (by decide)⟩

/-! ## Shared string helpers -/

/-- ASCII lower-casing of one character (models JS `toLowerCase` on the
ASCII repertoire, which covers all repository data). -/
def lowerChar (c : Char) : Char :=
  match c with
  | 'A' => 'a' | 'B' => 'b' | 'C' => 'c' | 'D' => 'd' | 'E' => 'e'
  | 'F' => 'f' | 'G' => 'g' | 'H' => 'h' | 'I' => 'i' | 'J' => 'j'
  | 'K' => 'k' | 'L' => 'l' | 'M' => 'm' | 'N' => 'n' | 'O' => 'o'
  | 'P' => 'p' | 'Q' => 'q' | 'R' => 'r' | 'S' => 's' | 'T' => 't'
  | 'U' => 'u' | 'V' => 'v' | 'W' => 'w' | 'X' => 'x' | 'Y' => 'y'
  | 'Z' => 'z' | c => c

/-- ASCII upper-casing of one character (models JS `toUpperCase`). -/
def upperChar (c : Char) : Char :=
  match c with
  | 'a' => 'A' | 'b' => 'B' | 'c' => 'C' | 'd' => 'D' | 'e' => 'E'
  | 'f' => 'F' | 'g' => 'G' | 'h' => 'H' | 'i' => 'I' | 'j' => 'J'
  | 'k' => 'K' | 'l' => 'L' | 'm' => 'M' | 'n' => 'N' | 'o' => 'O'
  | 'p' => 'P' | 'q' => 'Q' | 'r' => 'R' | 's' => 'S' | 't' => 'T'
  | 'u' => 'U' | 'v' => 'V' | 'w' => 'W' | 'x' => 'X' | 'y' => 'Y'
  | 'z' => 'Z' | c => c

/-- Model of JS `String.prototype.toLowerCase`. -/
def jsToLower (s : String) : String := String.mk (s.data.map lowerChar)

/-- Model of JS `String.prototype.toUpperCase`. -/
def jsToUpper (s : String) : String := String.mk (s.data.map upperChar)

/-- ASCII whitespace test. -/
def isWsp (c : Char) : Bool := c = ' ' || c = '\t' || c = '\n' || c = '\r'

/-- Model of JS `String.prototype.trim`. -/
def jsTrim (s : String) : String :=
  String.mk (((s.data.dropWhile isWsp).reverse.dropWhile isWsp).reverse)

/-- Lexicographic comparison on code points (models the default
`Array.prototype.sort` string comparator, which compares code units; the two
agree on the data appearing here). -/
def lexLe : List Char → List Char → Bool
  | [], _ => true
  | _ :: _, [] => false
  | a :: as, b :: bs =>
      if a.toNat < b.toNat then true
      else if b.toNat < a.toNat then false
      else lexLe as bs

/-- String comparison used when sorting grouping keys. -/
def strLe (a b : String) : Bool := lexLe a.data b.data

/-- Substring test on character lists: does `hay` contain `needle`? -/
def hasSubstr (needle : List Char) : List Char → Bool
  | [] => needle.isEmpty
  | c :: rest => needle.isPrefixOf (c :: rest) || hasSubstr needle rest

/-- Model of JS `String.prototype.includes`. -/
def strIncludes (s needle : String) : Bool := hasSubstr needle.data s.data

/-- Decimal rendering of a natural number, most significant digit first
(auxiliary, structural on fuel so that it reduces in the kernel). -/
def natCharsAux : Nat → Nat → List Char
  | 0, _ => []
  | _, 0 => []
  | fuel + 1, n + 1 =>
      natCharsAux fuel ((n + 1) / 10) ++ [Nat.digitChar ((n + 1) % 10)]

/-- Decimal digit characters of a natural number.  Models the rendering JS
performs when a number is interpolated into a template literal. -/
def natChars (n : Nat) : List Char :=
  if n = 0 then ['0'] else natCharsAux (n + 1) n

/-- Model of JS number-to-string conversion for naturals. -/
def jsNat (n : Nat) : String := String.mk (natChars n)

/-- Decode a digit string back to a natural number (used only to prove that
`natChars` is injective). -/
def decodeDigits (l : List Char) : Nat :=
  l.foldl (fun acc c => acc * 10 + digitVal c) 0

theorem decodeDigits_append (l₁ l₂ : List Char) :
    decodeDigits (l₁ ++ l₂) =
      (l₂.foldl (fun acc c => acc * 10 + digitVal c) (decodeDigits l₁)) := by
  simp [decodeDigits, List.foldl_append]

theorem digitVal_digitChar : ∀ k < 10, digitVal (Nat.digitChar k) = k := by decide

theorem natCharsAux_zero (fuel : Nat) : natCharsAux fuel 0 = [] := by
  cases fuel <;> rfl

theorem decode_natCharsAux (fuel : Nat) :
    ∀ n, n ≤ fuel → 0 < n → decodeDigits (natCharsAux fuel n) = n := by
  induction fuel with
  | zero => intro n h1 h2; omega
  | succ fuel ih =>
      intro n h1 h2
      obtain ⟨m, rfl⟩ : ∃ m, n = m + 1 := ⟨n - 1, by omega⟩
      rw [natCharsAux, decodeDigits_append]
      have hlt : (m + 1) % 10 < 10 := Nat.mod_lt _ (by norm_num)
      rcases Nat.eq_zero_or_pos ((m + 1) / 10) with hq | hq
      · rw [hq, natCharsAux_zero]
        simp only [decodeDigits, List.foldl_nil, List.foldl_cons]
        rw [digitVal_digitChar _ hlt]
        omega
      · have hle : (m + 1) / 10 ≤ fuel := by
          have := Nat.div_lt_self (show 0 < m + 1 by omega) (show 1 < 10 by norm_num)
          omega
        rw [ih _ hle hq]
        simp only [List.foldl_cons, List.foldl_nil]
        rw [digitVal_digitChar _ hlt]
        omega

theorem decode_natChars (n : Nat) : decodeDigits (natChars n) = n := by
  unfold natChars
  by_cases h : n = 0
  · subst h; decide
  · rw [if_neg h]
    exact decode_natCharsAux (n + 1) n (by omega) (by omega)

theorem natChars_injective : Function.Injective natChars := by
  intro a b h
  have := decode_natChars a
  rw [h, decode_natChars] at this
  omega

theorem jsNat_injective : Function.Injective jsNat := by
  intro a b h
  exact natChars_injective (by simpa [jsNat, String.mk] using congrArg String.data h)

theorem digitChar_range : ∀ k < 10, '0' ≤ Nat.digitChar k ∧ Nat.digitChar k ≤ '9' := by
  decide

/-- The digit characters produced by `natCharsAux` are decimal digits. -/
theorem natCharsAux_digits (fuel : Nat) :
    ∀ n c, c ∈ natCharsAux fuel n → '0' ≤ c ∧ c ≤ '9' := by
  induction fuel with
  | zero => intro n c h; simp [natCharsAux] at h
  | succ fuel ih =>
      intro n c h
      match n, h with
      | m + 1, h =>
        rw [natCharsAux] at h
        rcases List.mem_append.1 h with h | h
        · exact ih _ _ h
        · have hlt : (m + 1) % 10 < 10 := Nat.mod_lt _ (by norm_num)
          simp only [List.mem_singleton] at h
          subst h
          exact digitChar_range _ hlt

theorem natChars_digits (n : Nat) (c : Char) (h : c ∈ natChars n) :
    '0' ≤ c ∧ c ≤ '9' := by
  unfold natChars at h
  by_cases hn : n = 0
  · rw [if_pos hn] at h; simp at h; subst h; decide
  · rw [if_neg hn] at h; exact natCharsAux_digits _ _ _ h

theorem natChars_no_dash (n : Nat) (c : Char) (h : c ∈ natChars n) : c ≠ '-' := by
  have := natChars_digits n c h
  intro hc; subst hc; revert this; decide

/-! ## Class timetable generator: data model (config/timetableGenerator.js) -/

/-- Elective slots: reserved on Tuesday and Thursday from 17:10 to 18:30
(the `electiveSlots` object literal). -/
def electiveSlots (day : String) : Option (List String) :=
  if day = "TUESDAY" then some ["17:10 - 17:30", "17:30 - 18:30"]
  else if day = "THURSDAY" then some ["17:10 - 17:30", "17:30 - 18:30"]
  else none

/-- `isElectiveSlot(day, slot)` — is a slot reserved for electives? -/
def isElectiveSlot (day slot : String) : Bool :=
  match electiveSlots day with
  | some slots => slots.contains slot
  | none => false

/-- A normalized course record (fields after the normalization loop at the
top of `generateTimetableWithSemesterSplit`).  `sec` is the JS `section`
field (`section` is a Lean keyword). -/
structure Course where
  code : String
  name : String
  faculty : String
  type : String
  branch : String
  sec : String
  year : Nat
  credits : Int
  semesterHalf : String
deriving DecidableEq, Repr

/-- A room record. -/
structure Room where
  number : String
  capacity : Int
  type : String
deriving DecidableEq, Repr

/-- A generated timetable entry, exactly the object pushed onto `timetable`
in `generateTimetableForHalf`. -/
structure Entry where
  day : String
  timeSlot : String
  course : String
  faculty : String
  room : String
  type : String
  branch : String
  year : Nat
  sec : String
  semesterHalf : String
deriving DecidableEq, Repr

/-- The running state of one `generateTimetableForHalf` call.  The JS
hash-objects `facultySchedule`, `roomSchedule` and
`branchYearSectionSchedule` are modelled as lists of marked keys; `ctr`
counts the `Math.random()` draws made so far (see the oracle convention in
the file header). -/
structure HalfState where
  timetable : List Entry
  facultySched : List String
  roomSched : List String
  groupSched : List (String × String × String)
  ctr : Nat
deriving Repr

/-- The `"faculty-day-slot-semesterHalf"` conflict key. -/
def fKey (faculty day slot half : String) : String :=
  faculty ++ "-" ++ day ++ "-" ++ slot ++ "-" ++ half

/-- The `"room-day-slot-semesterHalf"` conflict key. -/
def rKey (room day slot half : String) : String :=
  room ++ "-" ++ day ++ "-" ++ slot ++ "-" ++ half

/-- The branch-year-section key string built from its three components
(`"branch-year-section"`, or `"branch-year"` when the section is empty). -/
def entryGroupKey (b : String) (y : Nat) (s : String) : String :=
  if s ≠ "" then b ++ "-" ++ jsNat y ++ "-" ++ s
  else b ++ "-" ++ jsNat y

/-- The grouping key of a course. -/
def groupKeyOf (c : Course) : String := entryGroupKey c.branch c.year c.sec

/-- Model of JS `String.prototype.split('-')`. -/
def splitDash : List Char → List (List Char)
  | [] => [[]]
  | c :: rest =>
      if c = '-' then [] :: splitDash rest
      else
        match splitDash rest with
        | [] => [[c]]
        | p :: ps => (c :: p) :: ps

/-- `parts[2] || ''` of `branchYearSectionKey.split('-')` — the section
recovered from a grouping key. -/
def sectionOfKey (key : String) : String :=
  match splitDash key.data with
  | _ :: _ :: s :: _ => String.mk s
  | _ => ""

/-- The conflict test of the placement loops: some slot of the combination
is already held by this faculty, this room, or this student group. -/
def hasConflict (st : HalfState) (gkey faculty room day half : String)
    (slots : List String) : Bool :=
  slots.any (fun slot =>
    decide (fKey faculty day slot half ∈ st.facultySched) ||
    decide (rKey room day slot half ∈ st.roomSched) ||
    decide ((gkey, day, slot) ∈ st.groupSched))

/-- Committing a batch of entries: push them on the timetable and mark every
slot in the faculty, room and student-group schedules (the
`slotsToUse.forEach` commit block). -/
def commitEntries (st : HalfState) (gkey : String) (entries : List Entry) :
    HalfState :=
  { st with
    timetable := st.timetable ++ entries
    facultySched := st.facultySched ++
      entries.map (fun e => fKey e.faculty e.day e.timeSlot e.semesterHalf)
    roomSched := st.roomSched ++
      entries.map (fun e => rKey e.room e.day e.timeSlot e.semesterHalf)
    groupSched := st.groupSched ++
      entries.map (fun e => (gkey, e.day, e.timeSlot)) }

/-- The session label `"Lecture n"` / `"Tutorial"` combined with the course
name, plus the `(i/n)` suffix for multi-slot sessions. -/
def mkSessionName (c : Course) (label : String) (idx len : Nat) : String :=
  let base := c.name ++ " - " ++ label
  if len > 1 then base ++ " (" ++ jsNat (idx + 1) ++ "/" ++ jsNat len ++ ")"
  else base

/-- The batch of entries pushed by one session commit: one entry per slot of
the combination, with a name built from the entry index and batch size. -/
def mkBatch (c : Course) (sessionType day roomNo half sec : String)
    (nameFn : Nat → Nat → String) (slots : List String) : List Entry :=
  slots.enum.map (fun p =>
    { day := day, timeSlot := p.2
      course := nameFn p.1 slots.length
      faculty := c.faculty, room := roomNo, type := sessionType
      branch := c.branch, year := c.year, sec := sec, semesterHalf := half })

/-- The entries pushed for one regular (lecture/tutorial) session. -/
def mkEntries (c : Course) (sessionType label day roomNo half sec : String)
    (slots : List String) : List Entry :=
  mkBatch c sessionType day roomNo half sec (mkSessionName c label) slots

/-- The entries pushed for one lab session (name `"name (i/n)"`, type
`"Lab"`). -/
def mkLabEntries (c : Course) (day roomNo half sec : String)
    (slots : List String) : List Entry :=
  mkBatch c "Lab" day roomNo half sec
    (fun i n => c.name ++ " (" ++ jsNat (i + 1) ++ "/" ++ jsNat n ++ ")") slots

/-! ## Class timetable generator: placement loops -/

/-- One regular-session placement loop (the `while (!assigned && attempts <
maxAttempts)` loop of the lecture/tutorial path), recursing on the remaining
attempt budget.  Returns the updated state and, on success, the committed
day.  When `rooms` is empty the JS code would dereference `undefined` and
throw; the model treats that (unreachable in the served system, which
rejects empty room lists) as a failed attempt. -/
def attemptSession (g : Nat → Nat) (c : Course)
    (gkey sec half : String) (rooms : List Room)
    (combos : List SlotCombination) (sessionType label : String)
    (usedDays : List String) : Nat → HalfState → HalfState × Option String
  | 0, st => (st, none)
  | fuel + 1, st =>
      let availableDays := days.filter (fun d => !(usedDays.contains d))
      if availableDays.length = 0 then (st, none)
      else
        -- draw 1 (index st.ctr): the day; draw 2: the combination
        let day := (availableDays.get? (g st.ctr % availableDays.length)).getD ""
        match combos.get? (g (st.ctr + 1) % combos.length) with
        | none =>
            attemptSession g c gkey sec half rooms combos sessionType label
              usedDays fuel { st with ctr := st.ctr + 2 }
        | some combination =>
            if combination.slots.any (fun slot => isElectiveSlot day slot) then
              attemptSession g c gkey sec half rooms combos sessionType label
                usedDays fuel { st with ctr := st.ctr + 2 }
            else
              let classrooms := rooms.filter
                (fun r => strIncludes (jsToLower r.type) "class")
              if classrooms.length > 0 then
                -- draw 3: the classroom
                match classrooms.get? (g (st.ctr + 2) % classrooms.length) with
                | none =>
                    attemptSession g c gkey sec half rooms combos sessionType
                      label usedDays fuel { st with ctr := st.ctr + 3 }
                | some room =>
                    let st' := { st with ctr := st.ctr + 3 }
                    if hasConflict st' gkey c.faculty room.number day half
                        combination.slots then
                      attemptSession g c gkey sec half rooms combos sessionType
                        label usedDays fuel st'
                    else
                      (commitEntries st' gkey
                        (mkEntries c sessionType label day room.number half sec
                          combination.slots), some day)
              else
                match rooms.get? 0 with
                | none =>
                    attemptSession g c gkey sec half rooms combos sessionType
                      label usedDays fuel { st with ctr := st.ctr + 2 }
                | some room =>
                    let st' := { st with ctr := st.ctr + 2 }
                    if hasConflict st' gkey c.faculty room.number day half
                        combination.slots then
                      attemptSession g c gkey sec half rooms combos sessionType
                        label usedDays fuel st'
                    else
                      (commitEntries st' gkey
                        (mkEntries c sessionType label day room.number half sec
                          combination.slots), some day)

/-- Fold of `sessionsNeeded.forEach`: schedule the three sessions of a
regular course, accumulating the used days (the `courseSchedule[courseKey]`
list). -/
def scheduleSessionsAux (g : Nat → Nat) (c : Course)
    (gkey sec half : String) (rooms : List Room) :
    List (String × String × List SlotCombination) → List String → HalfState →
      HalfState × List String
  | [], usedDays, st => (st, usedDays)
  | (sessionType, label, combos) :: rest, usedDays, st =>
      let maxAttempts := days.length * combos.length * 3
      let (st, res) := attemptSession g c gkey sec half rooms combos
        sessionType label usedDays maxAttempts st
      match res with
      | some day =>
          scheduleSessionsAux g c gkey sec half rooms rest
            (usedDays ++ [day]) st
      | none => scheduleSessionsAux g c gkey sec half rooms rest usedDays st

/-- The `sessionsNeeded` array of a regular course: two 90-minute lectures
and one 60-minute tutorial. -/
def sessionsNeeded (lec90 tut60 : List SlotCombination) :
    List (String × String × List SlotCombination) :=
  [("Lecture", "Lecture 1", lec90), ("Lecture", "Lecture 2", lec90),
   ("Tutorial", "Tutorial", tut60)]

/-- Schedule one regular course: its three sessions, starting from an empty
used-day list. -/
def scheduleRegularCourse (g : Nat → Nat) (gkey sec half : String)
    (rooms : List Room) (lec90 tut60 : List SlotCombination) (c : Course)
    (st : HalfState) : HalfState × List String :=
  scheduleSessionsAux g c gkey sec half rooms (sessionsNeeded lec90 tut60)
    [] st

/-- Lab strategy 1: a randomly drawn 120-minute combination.  `attempts`
counts iterations made so far; `maxAttempts` is `days.length * 50 = 250`, so
the JS strategy gates `attempts < maxAttempts * 0.3` and
`attempts > maxAttempts * 0.5` evaluate (in IEEE doubles) to
`attempts < 75` and `attempts > 125`. -/
def labStrat1 (g : Nat → Nat) (lab120 : List SlotCombination) (attempts : Nat)
    (st : HalfState) : List String × HalfState :=
  if lab120.length > 0 && attempts < 75 then
    match lab120.get? (g st.ctr % lab120.length) with
    | some combination => (combination.slots, { st with ctr := st.ctr + 1 })
    | none => (([] : List String), { st with ctr := st.ctr + 1 })
  else (([] : List String), st)

/-- Lab strategy 2 (when strategy 1 produced nothing): 2–3 consecutive slots
of a randomly drawn continuous block. -/
def labStrat2 (g : Nat → Nat) (s1 : List String) (st : HalfState) :
    List String × HalfState :=
  if s1.length = 0 then
    let blocks := getContinuousTimeBlocks
    match blocks.get? (g st.ctr % blocks.length) with
    | some selectedBlock =>
        if selectedBlock.slots.length ≥ 2 then
          let startIdx := g (st.ctr + 1) % (selectedBlock.slots.length - 1)
          let numSlots := min 3 (selectedBlock.slots.length - startIdx)
          ((selectedBlock.slots.drop startIdx).take numSlots,
            { st with ctr := st.ctr + 2 })
        else (([] : List String), { st with ctr := st.ctr + 1 })
    | none => (([] : List String), { st with ctr := st.ctr + 1 })
  else (s1, st)

/-- Lab strategy 3 (when the others produced nothing and `attempts > 125`):
two adjacent non-elective catalog slots. -/
def labStrat3 (g : Nat → Nat) (attempts : Nat) (day : String)
    (s2 : List String) (st : HalfState) : List String × HalfState :=
  if s2.length = 0 && attempts > 125 then
    let availableSlots := timeSlots.filter
      (fun slot => !(isElectiveSlot day slot))
    if availableSlots.length ≥ 2 then
      let startIdx := g st.ctr % (availableSlots.length - 1)
      (((availableSlots.get? startIdx).toList ++
        (availableSlots.get? (startIdx + 1)).toList),
        { st with ctr := st.ctr + 1 })
    else (([] : List String), st)
  else (s2, st)

def labPickSlots (g : Nat → Nat) (lab120 : List SlotCombination)
    (attempts : Nat) (day : String) (st : HalfState) :
    List String × HalfState :=
  let p1 := labStrat1 g lab120 attempts st
  let p2 := labStrat2 g p1.1 p1.2
  labStrat3 g attempts day p2.1 p2.2

/-- The tail of one lab attempt: the elective double-check, lab-room
selection, conflict check and commit.  Returns the new state and whether the
lab was placed. -/
def labFinish (g : Nat → Nat) (c : Course) (gkey sec half : String)
    (rooms : List Room) (day : String) (slotsToUse : List String)
    (st : HalfState) : HalfState × Bool :=
  if slotsToUse.length = 0 then (st, false)
  else if slotsToUse.any (fun slot => isElectiveSlot day slot) then (st, false)
  else
    let labRooms := rooms.filter (fun r => strIncludes (jsToLower r.type) "lab")
    if labRooms.length > 0 then
      match labRooms.get? (g st.ctr % labRooms.length) with
      | none => ({ st with ctr := st.ctr + 1 }, false)
      | some room =>
          let st' := { st with ctr := st.ctr + 1 }
          if hasConflict st' gkey c.faculty room.number day half slotsToUse then
            (st', false)
          else
            (commitEntries st' gkey
              (mkLabEntries c day room.number half sec slotsToUse), true)
    else
      match rooms.get? (g st.ctr % rooms.length) with
      | none => ({ st with ctr := st.ctr + 1 }, false)
      | some room =>
          let st' := { st with ctr := st.ctr + 1 }
          if hasConflict st' gkey c.faculty room.number day half slotsToUse then
            (st', false)
          else
            (commitEntries st' gkey
              (mkLabEntries c day room.number half sec slotsToUse), true)

/-- One lab placement loop (the `while` loop of the lab path): draw a day,
pick slots by the strategy ladder, then check and commit; on failure retry
with the next attempt. -/
def attemptLab (g : Nat → Nat) (c : Course) (gkey sec half : String)
    (rooms : List Room) (lab120 : List SlotCombination)
    (attempts : Nat) : Nat → HalfState → HalfState × Bool
  | 0, st => (st, false)
  | fuel + 1, st =>
      let day := (days.get? (g st.ctr % days.length)).getD ""
      let (slotsToUse, st1) :=
        labPickSlots g lab120 attempts day { st with ctr := st.ctr + 1 }
      match labFinish g c gkey sec half rooms day slotsToUse st1 with
      | (st2, true) => (st2, true)
      | (st2, false) =>
          attemptLab g c gkey sec half rooms lab120 (attempts + 1) fuel st2

/-- Schedule the lab courses of one group. -/
def scheduleLabs (g : Nat → Nat) (gkey sec half : String)
    (rooms : List Room) (lab120 : List SlotCombination) :
    List Course → HalfState → HalfState
  | [], st => st
  | c :: rest, st =>
      let maxAttempts := days.length * 50
      let (st, _) := attemptLab g c gkey sec half rooms lab120 0 maxAttempts st
      scheduleLabs g gkey sec half rooms lab120 rest st

/-- Schedule the regular courses of one group. -/
def scheduleRegulars (g : Nat → Nat) (gkey sec half : String)
    (rooms : List Room) (lec90 tut60 : List SlotCombination) :
    List Course → HalfState → HalfState
  | [], st => st
  | c :: rest, st =>
      let (st, _) := scheduleRegularCourse g gkey sec half rooms lec90 tut60 c st
      scheduleRegulars g gkey sec half rooms lec90 tut60 rest st

/-- Pre-seed the elective slots of a group's schedule as occupied
(`'ELECTIVE_RESERVED'`). -/
def seedElective (st : HalfState) (gkey : String) : HalfState :=
  { st with groupSched := st.groupSched ++
      (days.map (fun day =>
        match electiveSlots day with
        | some slots => slots.map (fun slot => (gkey, day, slot))
        | none => [])).flatten }

/-- Process one branch-year-section group: seed elective slots, split labs
from regular courses, schedule regular courses then labs. -/
def processGroup (g : Nat → Nat) (rooms : List Room) (half : String)
    (gkey : String) (courses : List Course) (st : HalfState) : HalfState :=
  let st := seedElective st gkey
  let sec := sectionOfKey gkey
  let labCourses := courses.filter (fun c => strIncludes (jsToLower c.type) "lab")
  let regularCourses := courses.filter
    (fun c => !(strIncludes (jsToLower c.type) "lab"))
  let lec90 := findSlotsForDuration 90
  let tut60 := findSlotsForDuration 60
  let lab120 := findSlotsForDuration 120
  let st := scheduleRegulars g gkey sec half rooms lec90 tut60 regularCourses st
  scheduleLabs g gkey sec half rooms lab120 labCourses st

/-- Append a course to its group (JS object bucket insertion, preserving
key insertion order). -/
def addToGroup (groups : List (String × List Course)) (key : String)
    (c : Course) : List (String × List Course) :=
  match groups with
  | [] => [(key, [c])]
  | (k, cs) :: rest =>
      if k = key then (k, cs ++ [c]) :: rest
      else (k, cs) :: addToGroup rest key c

/-- `coursesByBranchYearSection`: group the courses, skipping records with a
falsy branch or year. -/
def groupCourses (courses : List Course) : List (String × List Course) :=
  courses.foldl
    (fun groups c =>
      if c.branch = "" || c.year = 0 then groups
      else addToGroup groups (groupKeyOf c) c) []

/-- Insertion sort on strings (models `Object.keys(...).sort()`). -/
def insertStr (x : String) : List String → List String
  | [] => [x]
  | y :: ys => if strLe x y then x :: y :: ys else y :: insertStr x ys

/-- Sort a list of strings. -/
def sortStrings : List String → List String
  | [] => []
  | x :: xs => insertStr x (sortStrings xs)

/-- Process all groups in sorted key order. -/
def processGroups (g : Nat → Nat) (rooms : List Room) (half : String) :
    List (String × List Course) → HalfState → HalfState
  | [], st => st
  | (gkey, courses) :: rest, st =>
      processGroups g rooms half rest (processGroup g rooms half gkey courses st)

/-- `generateTimetableForHalf(courses, faculty, rooms, semesterHalf)`.  The
`faculty` argument of the JS function is never read and is omitted.  `ctr`
is the index of the next random draw. -/
def generateTimetableForHalf (g : Nat → Nat) (courses : List Course)
    (rooms : List Room) (half : String) (ctr : Nat) : HalfState :=
  let groups := groupCourses courses
  let sortedKeys := sortStrings (groups.map Prod.fst)
  let ordered := sortedKeys.filterMap
    (fun k => (groups.lookup k).map (fun cs => (k, cs)))
  processGroups g rooms half ordered
    { timetable := [], facultySched := [], roomSched := [], groupSched := [],
      ctr := ctr }

/-! ## Semester-half partition (generateTimetableWithSemesterSplit) -/

/-- A raw course record before the normalization loop.  `none` models a
missing / non-numeric field (`parseInt` / `parseFloat` returning `NaN`).
Credits are carried as integers: every credit value of the documented data
model is integral, and `parseFloat` is exact on integral strings. -/
structure RawCourse where
  code : String
  name : String
  faculty : String
  type : String
  branch : String
  sec : Option String
  year : Option Nat
  credits : Option Int
  semesterHalf : Option String
deriving DecidableEq, Repr

/-- The normalization loop at the top of
`generateTimetableWithSemesterSplit`: trim text fields, default the type to
`'Lecture'`, parse `year` with default 1, `credits` with default 3 (a parsed
0 is falsy, hence also replaced by 3), `semesterHalf` with default `'0'`,
uppercase the section. -/
def normalizeCourse (c : RawCourse) : Course :=
  { code := jsTrim c.code
    name := jsTrim c.name
    faculty := jsTrim c.faculty
    type := jsTrim (if c.type = "" then "Lecture" else c.type)
    branch := jsTrim c.branch
    sec := match c.sec with
      | some s => if s = "" then "" else jsToUpper (jsTrim s)
      | none => ""
    year := match c.year with
      | some y => if y = 0 then 1 else y
      | none => 1
    credits := match c.credits with
      | some q => if q = 0 then 3 else q
      | none => 3
    semesterHalf := match c.semesterHalf with
      | some s => jsTrim s
      | none => "0" }

/-- The First-Half filter: explicit `'1'`, or full-semester (`'0'`) with at
least 3 credits. -/
def firstHalfCourses (cs : List Course) : List Course :=
  cs.filter (fun c =>
    c.semesterHalf = "1" || (c.semesterHalf = "0" && decide ((3 : Int) ≤ c.credits)))

/-- The Second-Half filter: explicit `'2'`, or full-semester (`'0'`). -/
def secondHalfCourses (cs : List Course) : List Course :=
  cs.filter (fun c => c.semesterHalf = "2" || c.semesterHalf = "0")

/-- `generateTimetableWithSemesterSplit(courses, faculty, rooms)`: normalize,
partition into the two half course sets, and run the half generator twice
(threading the random-draw counter). -/
def generateTimetableWithSemesterSplit (g : Nat → Nat)
    (raw : List RawCourse) (rooms : List Room) : List Entry :=
  let courses := raw.map normalizeCourse
  let first := firstHalfCourses courses
  let second := secondHalfCourses courses
  let st1 := generateTimetableForHalf g first rooms "First_Half" 0
  let st2 := generateTimetableForHalf g second rooms "Second_Half" st1.ctr
  st1.timetable ++ st2.timetable

/-! ## Invariant framework for the class scheduler

Every mutation the generator performs on its state is one of: a random draw
(counter bump), pre-seeding elective reservations, or committing a
conflict-checked batch of session entries.  `Evolves` captures exactly these
transitions; each placement function is then shown to evolve the state, and
each claimed invariant is shown to be preserved along `Evolves`.

The `strict` flag additionally records, when set, that every committed
batch's group key agrees with the branch-year-section fields stored in its
entries (which holds when branch and section names contain no `'-'`). -/

/-- Faculty conflict key of an entry. -/
def entryFKey (e : Entry) : String :=
  fKey e.faculty e.day e.timeSlot e.semesterHalf

/-- Room conflict key of an entry. -/
def entryRKey (e : Entry) : String :=
  rKey e.room e.day e.timeSlot e.semesterHalf

/-- Group key rebuilt from an entry's branch, year and section fields. -/
def entryGKey (e : Entry) : String := entryGroupKey e.branch e.year e.sec

/-- The transition relation generated by the state mutations of
`generateTimetableForHalf`. -/
inductive Evolves (h : String) (strict : Bool) : HalfState → HalfState → Prop
  | refl (st) : Evolves h strict st st
  | bump {st st'} (k : Nat) : Evolves h strict st st' →
      Evolves h strict st { st' with ctr := k }
  | seed {st st'} (gkey : String) : Evolves h strict st st' →
      Evolves h strict st (seedElective st' gkey)
  | commit {st st'} (gkey : String) (c : Course)
      (sessionType day roomNo sec : String) (nameFn : Nat → Nat → String)
      (slots : List String) :
      Evolves h strict st st' →
      hasConflict st' gkey c.faculty roomNo day h slots = false →
      slots.any (fun s => isElectiveSlot day s) = false →
      slots.Nodup →
      (strict = true → gkey = entryGroupKey c.branch c.year sec) →
      Evolves h strict st
        (commitEntries st' gkey (mkBatch c sessionType day roomNo h sec nameFn slots))

theorem evolves_trans {h : String} {strict : Bool} {a b c : HalfState}
    (h1 : Evolves h strict a b) (h2 : Evolves h strict b c) :
    Evolves h strict a c := by
  induction h2 with
  | refl => exact h1
  | bump k _ ih => exact Evolves.bump k ih
  | seed gkey _ ih => exact Evolves.seed gkey ih
  | commit gkey c ty day roomNo sec nameFn slots _ hconf helect hnodup hk ih =>
      exact Evolves.commit gkey c ty day roomNo sec nameFn slots ih hconf
        helect hnodup hk

theorem attemptSession_evolves (g : Nat → Nat) (c : Course)
    (gkey sec half : String) (rooms : List Room)
    (combos : List SlotCombination) (sessionType label : String)
    (usedDays : List String) (strict : Bool)
    (hcombos : ∀ combo ∈ combos, combo.slots.Nodup)
    (hs : strict = true → gkey = entryGroupKey c.branch c.year sec) :
    ∀ fuel st,
      Evolves half strict st
        (attemptSession g c gkey sec half rooms combos sessionType label
          usedDays fuel st).1 := by
  intro fuel st
  induction fuel, st using attemptSession.induct g c gkey sec half rooms combos
      sessionType label usedDays with
  | case1 st => exact Evolves.refl _
  | case2 fuel st ad hlen =>
      rw [attemptSession]; simp only [if_pos hlen]; exact Evolves.refl _
  | case3 fuel st ad hlen hget ih =>
      rw [attemptSession]
      simp only [if_neg hlen, hget]
      exact evolves_trans (Evolves.bump _ (Evolves.refl _)) ih
  | case4 fuel st ad hlen day combination hget helect ih =>
      rw [attemptSession]
      simp only [if_neg hlen, hget, if_pos helect]
      exact evolves_trans (Evolves.bump _ (Evolves.refl _)) ih
  | case5 fuel st ad hlen day combination hget helect classrooms hcl hroom ih =>
      rw [attemptSession]
      simp only [if_neg hlen, hget, if_neg helect, if_pos hcl, hroom]
      exact evolves_trans (Evolves.bump _ (Evolves.refl _)) ih
  | case6 fuel st ad hlen day combination hget helect classrooms hcl room hroom
      st' hconf ih =>
      rw [attemptSession]
      simp only [if_neg hlen, hget, if_neg helect, if_pos hcl, hroom, if_pos hconf]
      exact evolves_trans (Evolves.bump _ (Evolves.refl _)) ih
  | case7 fuel st ad hlen day combination hget helect classrooms hcl room hroom
      st' hconf =>
      rw [attemptSession]
      simp only [if_neg hlen, hget, if_neg helect, if_pos hcl, hroom, if_neg hconf]
      exact Evolves.commit _ c _ _ _ _ _ _
        (Evolves.bump _ (Evolves.refl _))
        (Bool.eq_false_iff.mpr hconf)
        (Bool.eq_false_iff.mpr helect)
        (hcombos _ (List.get?_mem hget))
        hs
  | case8 fuel st ad hlen day combination hget helect classrooms hcl hroom ih =>
      rw [attemptSession]
      simp only [if_neg hlen, hget, if_neg helect, if_neg hcl, hroom]
      exact evolves_trans (Evolves.bump _ (Evolves.refl _)) ih
  | case9 fuel st ad hlen day combination hget helect classrooms hcl room hroom
      st' hconf ih =>
      rw [attemptSession]
      simp only [if_neg hlen, hget, if_neg helect, if_neg hcl, hroom, if_pos hconf]
      exact evolves_trans (Evolves.bump _ (Evolves.refl _)) ih
  | case10 fuel st ad hlen day combination hget helect classrooms hcl room hroom
      st' hconf =>
      rw [attemptSession]
      simp only [if_neg hlen, hget, if_neg helect, if_neg hcl, hroom, if_neg hconf]
      exact Evolves.commit _ c _ _ _ _ _ _
        (Evolves.bump _ (Evolves.refl _))
        (Bool.eq_false_iff.mpr hconf)
        (Bool.eq_false_iff.mpr helect)
        (hcombos _ (List.get?_mem hget))
        hs

/-- Slot lists of all duration-matcher combinations are duplicate-free
(they are contiguous pieces of the duplicate-free block slot lists). -/
theorem findSlotsForDuration_nodup (t : Int) :
    ∀ combo ∈ findSlotsForDuration t, combo.slots.Nodup := by
  intro combo h
  simp only [findSlotsForDuration, List.mem_join, List.mem_map] at h
  obtain ⟨l, ⟨b, hb, rfl⟩, hcombo⟩ := h
  obtain ⟨hinfx, _, _, _⟩ := blockCombinations_spec t b combo hcombo
  have hbn : b.slots.Nodup := by
    revert hb
    have : ∀ b' ∈ getContinuousTimeBlocks, b'.slots.Nodup := by decide
    exact this b
  exact hbn.sublist hinfx.sublist

/-- The blocks' slot lists are duplicate-free. -/
theorem blocks_slots_nodup : ∀ b ∈ getContinuousTimeBlocks, b.slots.Nodup := by
  decide

/-- The catalog slot list is duplicate-free. -/
theorem timeSlots_nodup : timeSlots.Nodup := by decide

theorem labStrat1_snd (g : Nat → Nat) (lab120 : List SlotCombination)
    (attempts : Nat) (st : HalfState) :
    (labStrat1 g lab120 attempts st).2 =
      { st with ctr := (labStrat1 g lab120 attempts st).2.ctr } := by
  unfold labStrat1
  repeat' split
  all_goals rfl

theorem labStrat2_snd (g : Nat → Nat) (s1 : List String) (st : HalfState) :
    (labStrat2 g s1 st).2 = { st with ctr := (labStrat2 g s1 st).2.ctr } := by
  unfold labStrat2
  dsimp only
  repeat' split
  all_goals rfl

theorem labStrat3_snd (g : Nat → Nat) (attempts : Nat) (day : String)
    (s2 : List String) (st : HalfState) :
    (labStrat3 g attempts day s2 st).2 =
      { st with ctr := (labStrat3 g attempts day s2 st).2.ctr } := by
  unfold labStrat3
  dsimp only
  repeat' split
  all_goals rfl

/-- `labPickSlots` changes nothing but the draw counter. -/
theorem labPickSlots_snd (g : Nat → Nat) (lab120 : List SlotCombination)
    (attempts : Nat) (day : String) (st : HalfState) :
    (labPickSlots g lab120 attempts day st).2 =
      { st with ctr := (labPickSlots g lab120 attempts day st).2.ctr } := by
  unfold labPickSlots
  rw [labStrat3_snd, labStrat2_snd, labStrat1_snd]

theorem labStrat1_nodup (g : Nat → Nat) (lab120 : List SlotCombination)
    (attempts : Nat) (st : HalfState)
    (hlab : ∀ combo ∈ lab120, combo.slots.Nodup) :
    (labStrat1 g lab120 attempts st).1.Nodup := by
  unfold labStrat1
  split
  · split
    · rename_i combination hget
      exact hlab _ (List.get?_mem hget)
    · exact List.nodup_nil
  · exact List.nodup_nil

theorem labStrat2_nodup (g : Nat → Nat) (s1 : List String) (st : HalfState)
    (h1 : s1.Nodup) : (labStrat2 g s1 st).1.Nodup := by
  unfold labStrat2
  dsimp only
  split
  · split
    · rename_i selectedBlock hget
      split
      · exact ((blocks_slots_nodup _ (List.get?_mem hget)).sublist
          ((List.take_sublist _ _).trans (List.drop_sublist _ _)))
      · exact List.nodup_nil
    · exact List.nodup_nil
  · exact h1

theorem labStrat3_nodup (g : Nat → Nat) (attempts : Nat) (day : String)
    (s2 : List String) (st : HalfState) (h2 : s2.Nodup) :
    (labStrat3 g attempts day s2 st).1.Nodup := by
  unfold labStrat3
  dsimp only
  split
  · split
    · rename_i hlen2
      set availableSlots := timeSlots.filter
        (fun slot => !(isElectiveSlot day slot)) with havail
      have hnd : availableSlots.Nodup := timeSlots_nodup.filter _
      have hpos : 0 < availableSlots.length - 1 := by omega
      set i := g st.ctr % (availableSlots.length - 1) with hi
      have hilt : i < availableSlots.length - 1 := Nat.mod_lt _ hpos
      have hi1 : i < availableSlots.length := by omega
      have hi2 : i + 1 < availableSlots.length := by omega
      rw [List.get?_eq_get hi1, List.get?_eq_get hi2]
      simp only [Option.toList_some, List.singleton_append, List.nodup_cons,
        List.mem_singleton, List.not_mem_nil, not_false_iff, List.nodup_nil,
        and_true]
      intro heq
      have : i = i + 1 := by
        apply List.get?_inj hi1 hnd
        rw [List.get?_eq_get hi1, List.get?_eq_get hi2, heq]
      omega
    · exact List.nodup_nil
  · exact h2

/-- The slot list chosen by `labPickSlots` is duplicate-free. -/
theorem labPickSlots_nodup (g : Nat → Nat) (lab120 : List SlotCombination)
    (attempts : Nat) (day : String) (st : HalfState)
    (hlab : ∀ combo ∈ lab120, combo.slots.Nodup) :
    (labPickSlots g lab120 attempts day st).1.Nodup := by
  unfold labPickSlots
  exact labStrat3_nodup _ _ _ _ _
    (labStrat2_nodup _ _ _ (labStrat1_nodup _ _ _ _ hlab))

theorem labFinish_evolves (g : Nat → Nat) (c : Course) (gkey sec half : String)
    (rooms : List Room) (day : String) (slotsToUse : List String)
    (st : HalfState) (strict : Bool)
    (hnd : slotsToUse.Nodup)
    (hs : strict = true → gkey = entryGroupKey c.branch c.year sec) :
    Evolves half strict st
      (labFinish g c gkey sec half rooms day slotsToUse st).1 := by
  unfold labFinish
  split
  · exact Evolves.refl _
  · split
    · exact Evolves.refl _
    · rename_i helect
      dsimp only
      split
      · split
        · exact Evolves.bump _ (Evolves.refl _)
        · rename_i room hget
          split
          · exact Evolves.bump _ (Evolves.refl _)
          · rename_i hconf
            exact Evolves.commit _ c _ _ _ _ _ _
              (Evolves.bump _ (Evolves.refl _))
              (Bool.eq_false_iff.mpr hconf)
              (Bool.eq_false_iff.mpr helect)
              hnd hs
      · split
        · exact Evolves.bump _ (Evolves.refl _)
        · rename_i room hget
          split
          · exact Evolves.bump _ (Evolves.refl _)
          · rename_i hconf
            exact Evolves.commit _ c _ _ _ _ _ _
              (Evolves.bump _ (Evolves.refl _))
              (Bool.eq_false_iff.mpr hconf)
              (Bool.eq_false_iff.mpr helect)
              hnd hs

theorem attemptLab_evolves (g : Nat → Nat) (c : Course) (gkey sec half : String)
    (rooms : List Room) (lab120 : List SlotCombination) (strict : Bool)
    (hlab : ∀ combo ∈ lab120, combo.slots.Nodup)
    (hs : strict = true → gkey = entryGroupKey c.branch c.year sec) :
    ∀ fuel attempts st,
      Evolves half strict st
        (attemptLab g c gkey sec half rooms lab120 attempts fuel st).1 := by
  intro fuel
  induction fuel with
  | zero => intro attempts st; exact Evolves.refl _
  | succ fuel ih =>
      intro attempts st
      rw [attemptLab]
      dsimp only
      rcases hpick : labPickSlots g lab120 attempts
          ((days.get? (g st.ctr % days.length)).getD "")
          { st with ctr := st.ctr + 1 } with ⟨slots, st1⟩
      have hst1 : Evolves half strict st st1 := by
        have h2 := labPickSlots_snd g lab120 attempts
          ((days.get? (g st.ctr % days.length)).getD "")
          { st with ctr := st.ctr + 1 }
        rw [hpick] at h2
        simp only at h2
        rw [h2]
        exact Evolves.bump _ (Evolves.refl _)
      have hslots : slots.Nodup := by
        have h3 := labPickSlots_nodup g lab120 attempts
          ((days.get? (g st.ctr % days.length)).getD "")
          { st with ctr := st.ctr + 1 } hlab
        rw [hpick] at h3
        simpa using h3
      dsimp only
      rcases hfin : labFinish g c gkey sec half rooms
          ((days.get? (g st.ctr % days.length)).getD "") slots st1 with ⟨st2, b⟩
      have hst2 : Evolves half strict st1 st2 := by
        have h4 := labFinish_evolves g c gkey sec half rooms
          ((days.get? (g st.ctr % days.length)).getD "") slots st1 strict
          hslots hs
        rw [hfin] at h4
        exact h4
      cases b with
      | true => simpa [hfin] using evolves_trans hst1 hst2
      | false =>
          simp only [hfin]
          exact evolves_trans (evolves_trans hst1 hst2) (ih _ _)

theorem scheduleSessionsAux_evolves (g : Nat → Nat) (c : Course)
    (gkey sec half : String) (rooms : List Room) (strict : Bool)
    (hs : strict = true → gkey = entryGroupKey c.branch c.year sec) :
    ∀ (sessions : List (String × String × List SlotCombination))
      (usedDays : List String) (st : HalfState),
      (∀ s ∈ sessions, ∀ combo ∈ s.2.2, combo.slots.Nodup) →
      Evolves half strict st
        (scheduleSessionsAux g c gkey sec half rooms sessions usedDays st).1 := by
  intro sessions
  induction sessions with
  | nil => intro usedDays st _; exact Evolves.refl _
  | cons s rest ih =>
      intro usedDays st hses
      obtain ⟨sessionType, label, combos⟩ := s
      rw [scheduleSessionsAux]
      dsimp only
      rcases hatt : attemptSession g c gkey sec half rooms combos sessionType
          label usedDays (days.length * combos.length * 3) st with ⟨st1, res⟩
      have hst1 : Evolves half strict st st1 := by
        have h1 := attemptSession_evolves g c gkey sec half rooms combos
          sessionType label usedDays strict
          (fun combo hc => hses _ (List.mem_cons_self _ _) combo hc) hs
          (days.length * combos.length * 3) st
        rw [hatt] at h1
        exact h1
      dsimp only
      cases res with
      | some day =>
          exact evolves_trans hst1
            (ih _ _ (fun s hsm => hses s (List.mem_cons_of_mem _ hsm)))
      | none =>
          exact evolves_trans hst1
            (ih _ _ (fun s hsm => hses s (List.mem_cons_of_mem _ hsm)))

theorem scheduleRegulars_evolves (g : Nat → Nat) (gkey sec half : String)
    (rooms : List Room) (lec90 tut60 : List SlotCombination) (strict : Bool)
    (h90 : ∀ combo ∈ lec90, combo.slots.Nodup)
    (h60 : ∀ combo ∈ tut60, combo.slots.Nodup) :
    ∀ (courses : List Course) (st : HalfState),
      (strict = true →
        ∀ c ∈ courses, gkey = entryGroupKey c.branch c.year sec) →
      Evolves half strict st
        (scheduleRegulars g gkey sec half rooms lec90 tut60 courses st) := by
  intro courses
  induction courses with
  | nil => intro st _; exact Evolves.refl _
  | cons c rest ih =>
      intro st hsall
      rw [scheduleRegulars]
      dsimp only
      have h1 : Evolves half strict st
          (scheduleRegularCourse g gkey sec half rooms lec90 tut60 c st).1 := by
        apply scheduleSessionsAux_evolves
        · intro hstrict
          exact hsall hstrict c (List.mem_cons_self _ _)
        · intro s hsm combo hc
          simp only [sessionsNeeded, List.mem_cons] at hsm
          rcases hsm with rfl | rfl | rfl | hfalse
          · exact h90 combo hc
          · exact h90 combo hc
          · exact h60 combo hc
          · simp at hfalse
      exact evolves_trans h1
        (ih _ (fun hstrict c' hc' => hsall hstrict c' (List.mem_cons_of_mem _ hc')))

theorem scheduleLabs_evolves (g : Nat → Nat) (gkey sec half : String)
    (rooms : List Room) (lab120 : List SlotCombination) (strict : Bool)
    (hlab : ∀ combo ∈ lab120, combo.slots.Nodup) :
    ∀ (courses : List Course) (st : HalfState),
      (strict = true →
        ∀ c ∈ courses, gkey = entryGroupKey c.branch c.year sec) →
      Evolves half strict st
        (scheduleLabs g gkey sec half rooms lab120 courses st) := by
  intro courses
  induction courses with
  | nil => intro st _; exact Evolves.refl _
  | cons c rest ih =>
      intro st hsall
      rw [scheduleLabs]
      dsimp only
      have h1 : Evolves half strict st
          (attemptLab g c gkey sec half rooms lab120 0 (days.length * 50) st).1 :=
        attemptLab_evolves g c gkey sec half rooms lab120 strict hlab
          (fun hstrict => hsall hstrict c (List.mem_cons_self _ _)) _ _ _
      exact evolves_trans h1
        (ih _ (fun hstrict c' hc' => hsall hstrict c' (List.mem_cons_of_mem _ hc')))

theorem processGroup_evolves (g : Nat → Nat) (rooms : List Room)
    (half gkey : String) (courses : List Course) (st : HalfState)
    (strict : Bool)
    (hsall : strict = true → ∀ c ∈ courses,
      gkey = entryGroupKey c.branch c.year (sectionOfKey gkey)) :
    Evolves half strict st (processGroup g rooms half gkey courses st) := by
  unfold processGroup
  dsimp only
  have h1 : Evolves half strict st (seedElective st gkey) :=
    Evolves.seed _ (Evolves.refl _)
  have h2 := scheduleRegulars_evolves g gkey (sectionOfKey gkey) half rooms
    (findSlotsForDuration 90) (findSlotsForDuration 60) strict
    (findSlotsForDuration_nodup 90) (findSlotsForDuration_nodup 60)
    (courses.filter (fun c => !(strIncludes (jsToLower c.type) "lab")))
    (seedElective st gkey)
    (fun hstrict c hc => hsall hstrict c (List.mem_of_mem_filter hc))
  have h3 := scheduleLabs_evolves g gkey (sectionOfKey gkey) half rooms
    (findSlotsForDuration 120) strict (findSlotsForDuration_nodup 120)
    (courses.filter (fun c => strIncludes (jsToLower c.type) "lab"))
    (scheduleRegulars g gkey (sectionOfKey gkey) half rooms
      (findSlotsForDuration 90) (findSlotsForDuration 60)
      (courses.filter (fun c => !(strIncludes (jsToLower c.type) "lab")))
      (seedElective st gkey))
    (fun hstrict c hc => hsall hstrict c (List.mem_of_mem_filter hc))
  exact evolves_trans (evolves_trans h1 h2) h3

theorem processGroups_evolves (g : Nat → Nat) (rooms : List Room)
    (half : String) (strict : Bool) :
    ∀ (groups : List (String × List Course)) (st : HalfState),
      (strict = true → ∀ p ∈ groups, ∀ c ∈ p.2,
        p.1 = entryGroupKey c.branch c.year (sectionOfKey p.1)) →
      Evolves half strict st (processGroups g rooms half groups st) := by
  intro groups
  induction groups with
  | nil => intro st _; exact Evolves.refl _
  | cons p rest ih =>
      intro st hsall
      obtain ⟨gkey, courses⟩ := p
      rw [processGroups]
      exact evolves_trans
        (processGroup_evolves g rooms half gkey courses st strict
          (fun hstrict => hsall hstrict _ (List.mem_cons_self _ _)))
        (ih _ (fun hstrict p' hp' => hsall hstrict p' (List.mem_cons_of_mem _ hp')))

/-! ## Key-string plumbing: recovering the section from a grouping key -/

/-- A string that contains no `'-'` separator. -/
def dashFree (s : String) : Prop := ∀ ch ∈ s.data, ch ≠ '-'

instance dashFree_decidable (s : String) : Decidable (dashFree s) :=
  inferInstanceAs (Decidable (∀ ch ∈ s.data, ch ≠ '-'))

theorem str_data_append (a b : String) : (a ++ b).data = a.data ++ b.data := rfl

theorem jsNat_dashFree (y : Nat) : ∀ ch ∈ (jsNat y).data, ch ≠ '-' := by
  intro ch hch
  exact natChars_no_dash y ch hch

theorem splitDash_dashfree (l : List Char) (h : ∀ ch ∈ l, ch ≠ '-') :
    splitDash l = [l] := by
  induction l with
  | nil => rfl
  | cons c rest ih =>
      rw [splitDash, if_neg (h c (List.mem_cons_self _ _)),
        ih (fun ch hch => h ch (List.mem_cons_of_mem _ hch))]

theorem splitDash_append (l₁ l₂ : List Char) (h : ∀ ch ∈ l₁, ch ≠ '-') :
    splitDash (l₁ ++ '-' :: l₂) = l₁ :: splitDash l₂ := by
  induction l₁ with
  | nil => simp [splitDash]
  | cons c rest ih =>
      rw [List.cons_append, splitDash,
        if_neg (h c (List.mem_cons_self _ _)),
        ih (fun ch hch => h ch (List.mem_cons_of_mem _ hch))]

/-- With `'-'`-free branch and section, splitting a grouping key recovers
the section (`parts[2] || ''`). -/
theorem sectionOfKey_entryGroupKey (b : String) (y : Nat) (s : String)
    (hb : dashFree b) (hsec : dashFree s) :
    sectionOfKey (entryGroupKey b y s) = s := by
  unfold sectionOfKey entryGroupKey
  by_cases hcase : s = ""
  · subst hcase
    simp only [ne_eq, not_true_eq_false, if_false, if_neg]
    have hd : ("-" : String).data = ['-'] := rfl
    have hdata : (b ++ "-" ++ jsNat y).data = b.data ++ '-' :: (jsNat y).data := by
      rw [str_data_append, str_data_append, hd, List.append_assoc]
      rfl
    rw [hdata, splitDash_append _ _ hb,
      splitDash_dashfree _ (jsNat_dashFree y)]
  · rw [if_pos hcase]
    have hd : ("-" : String).data = ['-'] := rfl
    have hdata : (b ++ "-" ++ jsNat y ++ "-" ++ s).data =
        b.data ++ '-' :: ((jsNat y).data ++ '-' :: s.data) := by
      rw [str_data_append, str_data_append, str_data_append, str_data_append, hd]
      simp
    rw [hdata, splitDash_append _ _ hb, splitDash_append _ _ (jsNat_dashFree y),
      splitDash_dashfree _ hsec]

/-! ## Well-formedness of the grouping -/

/-- Every bucket member of a grouping built over `S` generated its bucket's
key and comes from `S`. -/
def GroupsWF (S : List Course) (groups : List (String × List Course)) : Prop :=
  ∀ p ∈ groups, ∀ c ∈ p.2, p.1 = groupKeyOf c ∧ c ∈ S

theorem addToGroup_wf {S : List Course} {groups : List (String × List Course)}
    {key : String} {c : Course} (h : GroupsWF S groups)
    (hkey : key = groupKeyOf c) (hc : c ∈ S) :
    GroupsWF S (addToGroup groups key c) := by
  induction groups with
  | nil =>
      intro p hp c' hc'
      simp only [addToGroup, List.mem_singleton] at hp
      subst hp
      simp only [List.mem_singleton] at hc'
      subst hc'
      exact ⟨hkey, hc⟩
  | cons q rest ih =>
      obtain ⟨k, cs⟩ := q
      intro p hp c' hc'
      rw [addToGroup] at hp
      by_cases hk : k = key
      · rw [if_pos hk] at hp
        rcases List.mem_cons.1 hp with rfl | hp'
        · simp only at hc'
          rcases List.mem_append.1 hc' with hc'' | hc''
          · exact h _ (List.mem_cons_self _ _) _ hc''
          · simp only [List.mem_singleton] at hc''
            subst hc''
            exact ⟨hk.trans hkey, hc⟩
        · exact h _ (List.mem_cons_of_mem _ hp') _ hc'
      · rw [if_neg hk] at hp
        rcases List.mem_cons.1 hp with rfl | hp'
        · exact h _ (List.mem_cons_self _ _) _ hc'
        · exact ih (fun q hq c'' hc'' => h q (List.mem_cons_of_mem _ hq) c'' hc'')
            _ hp' _ hc'

theorem groupCourses_wf (courses : List Course) :
    GroupsWF courses (groupCourses courses) := by
  unfold groupCourses
  have main : ∀ (l acc : List Course) (groups : List (String × List Course)),
      (∀ c ∈ l, c ∈ acc) → GroupsWF acc groups →
      GroupsWF acc (l.foldl
        (fun groups c =>
          if c.branch = "" || c.year = 0 then groups
          else addToGroup groups (groupKeyOf c) c) groups) := by
    intro l
    induction l with
    | nil => intro acc groups _ hwf; exact hwf
    | cons c rest ih =>
        intro acc groups hsub hwf
        rw [List.foldl_cons]
        apply ih
        · intro c' hc'; exact hsub c' (List.mem_cons_of_mem _ hc')
        · by_cases hskip : c.branch = "" || c.year = 0
          · simp only [hskip, if_true]; exact hwf
          · simp only [hskip, if_false]
            exact addToGroup_wf hwf rfl (hsub c (List.mem_cons_self _ _))
  exact main courses courses [] (fun c hc => hc) (fun p hp => by simp at hp)

theorem lookup_mem {l : List (String × List Course)} {k : String}
    {v : List Course} (h : l.lookup k = some v) : (k, v) ∈ l := by
  induction l with
  | nil => simp [List.lookup] at h
  | cons q rest ih =>
      obtain ⟨a, b⟩ := q
      rw [List.lookup] at h
      by_cases hk : k == a
      · simp only [hk, if_true] at h
        injection h with h
        subst h
        have : k = a := by simpa using hk
        subst this
        exact List.mem_cons_self _ _
      · simp only [Bool.not_eq_true] at hk
        rw [hk] at h
        simp only at h
        exact List.mem_cons_of_mem _ (ih h)

/-- The initial state of one `generateTimetableForHalf` call. -/
def initState (ctr : Nat) : HalfState :=
  { timetable := [], facultySched := [], roomSched := [], groupSched := [],
    ctr := ctr }

theorem generateTimetableForHalf_evolves (g : Nat → Nat)
    (courses : List Course) (rooms : List Room) (half : String) (ctr : Nat)
    (strict : Bool)
    (hdf : strict = true → ∀ c ∈ courses, dashFree c.branch ∧ dashFree c.sec) :
    Evolves half strict (initState ctr)
      (generateTimetableForHalf g courses rooms half ctr) := by
  unfold generateTimetableForHalf
  apply processGroups_evolves
  intro hstrict p hp c hc
  simp only [List.mem_filterMap, Option.map_eq_some'] at hp
  obtain ⟨k, _, cs, hlook, hpeq⟩ := hp
  subst hpeq
  have hmem := lookup_mem hlook
  obtain ⟨hkey, hcmem⟩ := groupCourses_wf courses _ hmem c hc
  obtain ⟨hbr, hsec⟩ := hdf hstrict c hcmem
  simp only at hkey ⊢
  rw [hkey, groupKeyOf, sectionOfKey_entryGroupKey _ _ _ hbr hsec]

/-! ## Committed batches -/

theorem mem_mkBatch {c : Course} {ty day roomNo half sec : String}
    {nameFn : Nat → Nat → String} {slots : List String} {e : Entry}
    (h : e ∈ mkBatch c ty day roomNo half sec nameFn slots) :
    e.day = day ∧ e.timeSlot ∈ slots ∧ e.faculty = c.faculty ∧
    e.room = roomNo ∧ e.semesterHalf = half ∧ e.branch = c.branch ∧
    e.year = c.year ∧ e.sec = sec ∧ e.type = ty := by
  simp only [mkBatch, List.mem_map] at h
  obtain ⟨p, hp, rfl⟩ := h
  refine ⟨rfl, ?_, rfl, rfl, rfl, rfl, rfl, rfl, rfl⟩
  have := List.mem_enum_iff_get?.1 hp
  exact List.get?_mem this

theorem mkBatch_pairwise {c : Course} {ty day roomNo half sec : String}
    {nameFn : Nat → Nat → String} {slots : List String}
    (hnd : slots.Nodup) :
    (mkBatch c ty day roomNo half sec nameFn slots).Pairwise
      (fun a b => a.timeSlot ≠ b.timeSlot) := by
  unfold mkBatch
  rw [List.pairwise_map]
  rw [List.pairwise_iff_get]
  intro i j hij
  simp only
  rw [List.get_enum, List.get_enum]
  simp only [ne_eq]
  intro heq
  have hlen : slots.enum.length = slots.length := List.enum_length
  have : (⟨i, by omega⟩ : Fin slots.length) = ⟨j, by omega⟩ :=
    (List.Nodup.get_inj_iff hnd).1 heq
  have : (i : Nat) = j := by simpa using congrArg Fin.val this
  omega

theorem hasConflict_false {st : HalfState} {gkey faculty room day half : String}
    {slots : List String}
    (h : hasConflict st gkey faculty room day half slots = false) :
    ∀ slot ∈ slots,
      fKey faculty day slot half ∉ st.facultySched ∧
      rKey room day slot half ∉ st.roomSched ∧
      (gkey, day, slot) ∉ st.groupSched := by
  intro slot hslot
  unfold hasConflict at h
  rw [List.any_eq_false] at h
  have h2 := h slot hslot
  simp only [Bool.or_eq_true, decide_eq_true_eq, not_or] at h2
  exact ⟨h2.1.1, h2.1.2, h2.2⟩

/-! ## C5: elective-slot protection -/

/-- No entry of `l` sits in an elective-reserved window (Tuesday or Thursday,
17:10–17:30 or 17:30–18:30). -/
def ElectiveFree (l : List Entry) : Prop :=
  ∀ e ∈ l, ¬((e.day = "TUESDAY" ∨ e.day = "THURSDAY") ∧
    (e.timeSlot = "17:10 - 17:30" ∨ e.timeSlot = "17:30 - 18:30"))

theorem isElectiveSlot_of (d s : String)
    (h : (d = "TUESDAY" ∨ d = "THURSDAY") ∧
      (s = "17:10 - 17:30" ∨ s = "17:30 - 18:30")) :
    isElectiveSlot d s = true := by
  obtain ⟨hd | hd, hs | hs⟩ := h <;> subst hd <;> subst hs <;> decide

theorem evolves_electiveFree {h : String} {strict : Bool} {st st' : HalfState}
    (hev : Evolves h strict st st') (hef : ElectiveFree st.timetable) :
    ElectiveFree st'.timetable := by
  induction hev with
  | refl => exact hef
  | bump k _ ih => exact ih
  | seed gkey _ ih => exact ih
  | commit gkey c ty day roomNo sec nameFn slots _ hconf helect hnodup hk ih =>
      intro e he
      rcases List.mem_append.1 he with he | he
      · exact ih e he
      · obtain ⟨hday, hslot, -, -, -, -, -, -, -⟩ := mem_mkBatch he
        intro hcond
        have h1 : isElectiveSlot e.day e.timeSlot = true := isElectiveSlot_of _ _ hcond
        rw [hday] at h1
        rw [List.any_eq_false] at helect
        exact absurd h1 (by simpa using helect _ hslot)

/-- The generator state at the start of a half run satisfies every
invariant. -/
theorem electiveFree_initState (ctr : Nat) :
    ElectiveFree (initState ctr).timetable := by
  intro e he
  exact absurd he (List.not_mem_nil e)

/-- **C5.** No entry of the class-timetable output occupies an
elective-reserved slot: no output session has day Tuesday or Thursday
together with time slot 17:10–17:30 or 17:30–18:30. -/
theorem c5_elective_protection (g : Nat → Nat) (raw : List RawCourse)
    (rooms : List Room) (e : Entry)
    (he : e ∈ generateTimetableWithSemesterSplit g raw rooms) :
    ¬((e.day = "TUESDAY" ∨ e.day = "THURSDAY") ∧
      (e.timeSlot = "17:10 - 17:30" ∨ e.timeSlot = "17:30 - 18:30")) := by
  have hfalse : ∀ (cs : List Course) (half : String) (ctr : Nat),
      ElectiveFree (generateTimetableForHalf g cs rooms half ctr).timetable :=
    fun cs half ctr =>
      evolves_electiveFree
        (generateTimetableForHalf_evolves g cs rooms half ctr false
          (fun hf => nomatch hf))
        (electiveFree_initState ctr)
  unfold generateTimetableWithSemesterSplit at he
  rcases List.mem_append.1 he with he | he
  · exact hfalse _ _ _ e he
  · exact hfalse _ _ _ e he

/-! ## C1: no faculty / room / student-group double booking -/

/-- Two timetable entries never collide: if they share the semester half,
the day and the time slot, then they differ in faculty, differ in room, and
differ in student group (branch, year, section). -/
def NoClash (e₁ e₂ : Entry) : Prop :=
  e₁.semesterHalf = e₂.semesterHalf → e₁.day = e₂.day →
  e₁.timeSlot = e₂.timeSlot →
    e₁.faculty ≠ e₂.faculty ∧ e₁.room ≠ e₂.room ∧
    ¬(e₁.branch = e₂.branch ∧ e₁.year = e₂.year ∧ e₁.sec = e₂.sec)

/-- The C1 induction invariant: every committed entry carries the current
half and its three conflict keys are marked, and entries are pairwise
clash-free. -/
def GoodC1 (h : String) (st : HalfState) : Prop :=
  (∀ e ∈ st.timetable, e.semesterHalf = h) ∧
  (∀ e ∈ st.timetable,
    entryFKey e ∈ st.facultySched ∧ entryRKey e ∈ st.roomSched ∧
    (entryGKey e, e.day, e.timeSlot) ∈ st.groupSched) ∧
  st.timetable.Pairwise NoClash

theorem goodC1_initState (h : String) (ctr : Nat) : GoodC1 h (initState ctr) :=
  ⟨fun e he => absurd he (List.not_mem_nil e),
   fun e he => absurd he (List.not_mem_nil e), List.Pairwise.nil⟩

theorem evolves_goodC1 {h : String} {st st' : HalfState}
    (hev : Evolves h true st st') (hg : GoodC1 h st) : GoodC1 h st' := by
  induction hev with
  | refl => exact hg
  | bump k _ ih => exact ih
  | seed gkey _ ih =>
      obtain ⟨hhalf, hmark, hpair⟩ := ih
      exact ⟨hhalf,
        fun e he => ⟨(hmark e he).1, (hmark e he).2.1,
          List.mem_append_left _ (hmark e he).2.2⟩, hpair⟩
  | commit gkey c ty day roomNo sec nameFn slots _ hconf helect hnodup hk ih =>
      obtain ⟨hhalf, hmark, hpair⟩ := ih
      have hgk : gkey = entryGroupKey c.branch c.year sec := hk rfl
      refine ⟨?_, ?_, ?_⟩
      · intro e he
        rcases List.mem_append.1 he with he | he
        · exact hhalf e he
        · exact (mem_mkBatch he).2.2.2.2.1
      · intro e he
        rcases List.mem_append.1 he with he | he
        · obtain ⟨h1, h2, h3⟩ := hmark e he
          exact ⟨List.mem_append_left _ h1, List.mem_append_left _ h2,
            List.mem_append_left _ h3⟩
        · obtain ⟨hday, hslot, hfac, hroom, hhalf2, hbr, hyr, hsec, -⟩ :=
            mem_mkBatch he
          refine ⟨List.mem_append_right _ ?_, List.mem_append_right _ ?_,
            List.mem_append_right _ ?_⟩
          · exact List.mem_map_of_mem _ he
          · exact List.mem_map_of_mem _ he
          · have hgke : entryGKey e = gkey := by
              rw [entryGKey, hbr, hyr, hsec, hgk]
            rw [hgke]
            exact List.mem_map_of_mem
              (fun e => (gkey, e.day, e.timeSlot)) he
      · refine List.pairwise_append.mpr ⟨hpair, ?_, ?_⟩
        · exact (mkBatch_pairwise hnodup).imp
            (fun hne hhalfeq hdayeq hsloteq => absurd hsloteq hne)
        · intro e₁ he₁ e₂ he₂
          intro hhalfeq hdayeq hsloteq
          obtain ⟨hday2, hslot2, hfac2, hroom2, hhalf2, hbr2, hyr2, hsec2, -⟩ :=
            mem_mkBatch he₂
          obtain ⟨hm1, hm2, hm3⟩ := hmark e₁ he₁
          have hc := hasConflict_false hconf e₂.timeSlot hslot2
          have hh1 : e₁.semesterHalf = h := hhalf e₁ he₁
          refine ⟨?_, ?_, ?_⟩
          · intro hfeq
            apply hc.1
            have : entryFKey e₁ = fKey c.faculty day e₂.timeSlot h := by
              unfold entryFKey
              rw [hfeq, hfac2, hdayeq, hday2, hsloteq, hh1]
            rw [← this]
            exact hm1
          · intro hreq
            apply hc.2.1
            have : entryRKey e₁ = rKey roomNo day e₂.timeSlot h := by
              unfold entryRKey
              rw [hreq, hroom2, hdayeq, hday2, hsloteq, hh1]
            rw [← this]
            exact hm2
          · rintro ⟨hbeq, hyeq, hseq⟩
            apply hc.2.2
            have : entryGKey e₁ = gkey := by
              rw [entryGKey, hbeq, hyeq, hseq, hbr2, hyr2, hsec2, hgk]
            rw [← this, ← hday2, ← hdayeq, ← hsloteq]
            exact hm3

/-- **C1.** Under the hygiene assumption that branch and section names
contain no `'-'` (true of the documented data model: branches CSE / DSAI /
ECE, sections A / B / C), any two distinct entries of the class-timetable
output that share the semester half, the day and the time slot differ in
faculty, differ in room, and differ in student group
(branch, year, section). -/
theorem c1_no_double_booking (g : Nat → Nat) (raw : List RawCourse)
    (rooms : List Room)
    (hdf : ∀ c ∈ raw.map normalizeCourse, dashFree c.branch ∧ dashFree c.sec) :
    (generateTimetableWithSemesterSplit g raw rooms).Pairwise NoClash := by
  unfold generateTimetableWithSemesterSplit
  dsimp only
  have h1 := evolves_goodC1
    (generateTimetableForHalf_evolves g
      (firstHalfCourses (raw.map normalizeCourse)) rooms "First_Half" 0 true
      (fun _ c hc => hdf c (List.mem_of_mem_filter hc)))
    (goodC1_initState _ _)
  have h2 := evolves_goodC1
    (generateTimetableForHalf_evolves g
      (secondHalfCourses (raw.map normalizeCourse)) rooms "Second_Half"
      (generateTimetableForHalf g (firstHalfCourses (raw.map normalizeCourse))
        rooms "First_Half" 0).ctr true
      (fun _ c hc => hdf c (List.mem_of_mem_filter hc)))
    (goodC1_initState _ _)
  rw [List.pairwise_append]
  refine ⟨h1.2.2, h2.2.2, ?_⟩
  intro e₁ he₁ e₂ he₂ hhalfeq
  exfalso
  have hf : e₁.semesterHalf = "First_Half" := h1.1 e₁ he₁
  have hs : e₂.semesterHalf = "Second_Half" := h2.1 e₂ he₂
  rw [hf, hs] at hhalfeq
  exact absurd hhalfeq (by decide)

/-! ## C4: multi-session courses land on pairwise-distinct days -/

/-- On success, the day committed by one session-placement loop was drawn
from the days not yet used by this course. -/
theorem attemptSession_day (g : Nat → Nat) (c : Course)
    (gkey sec half : String) (rooms : List Room)
    (combos : List SlotCombination) (sessionType label : String)
    (usedDays : List String) :
    ∀ fuel st st' day,
      attemptSession g c gkey sec half rooms combos sessionType label
        usedDays fuel st = (st', some day) →
      day ∈ days ∧ day ∉ usedDays := by
  intro fuel st
  induction fuel, st using attemptSession.induct g c gkey sec half rooms combos
      sessionType label usedDays with
  | case1 st =>
      intro st' day h
      rw [attemptSession] at h
      simp at h
  | case2 fuel st ad hlen =>
      intro st' day h
      rw [attemptSession] at h
      simp only [if_pos hlen] at h
      simp at h
  | case3 fuel st ad hlen hget ih =>
      intro st' day h
      rw [attemptSession] at h
      simp only [if_neg hlen, hget] at h
      exact ih _ _ h
  | case4 fuel st ad hlen day combination hget helect ih =>
      intro st' day' h
      rw [attemptSession] at h
      simp only [if_neg hlen, hget, if_pos helect] at h
      exact ih _ _ h
  | case5 fuel st ad hlen day combination hget helect classrooms hcl hroom ih =>
      intro st' day' h
      rw [attemptSession] at h
      simp only [if_neg hlen, hget, if_neg helect, if_pos hcl, hroom] at h
      exact ih _ _ h
  | case6 fuel st ad hlen day combination hget helect classrooms hcl room hroom
      st'' hconf ih =>
      intro st' day' h
      rw [attemptSession] at h
      simp only [if_neg hlen, hget, if_neg helect, if_pos hcl, hroom,
        if_pos hconf] at h
      exact ih _ _ h
  | case7 fuel st ad hlen day combination hget helect classrooms hcl room hroom
      st'' hconf =>
      intro st' day' h
      rw [attemptSession] at h
      simp only [if_neg hlen, hget, if_neg helect, if_pos hcl, hroom,
        if_neg hconf, Prod.mk.injEq, Option.some.injEq] at h
      obtain ⟨-, rfl⟩ := h
      have hpos : 0 < (days.filter (fun d => !(usedDays.contains d))).length :=
        Nat.pos_of_ne_zero hlen
      have hlt := Nat.mod_lt (g st.ctr) hpos
      rw [List.get?_eq_get hlt]
      have hmem := List.get_mem (days.filter (fun d => !(usedDays.contains d)))
        _ hlt
      simp only [List.mem_filter, Bool.not_eq_true'] at hmem
      refine ⟨hmem.1, ?_⟩
      · intro hin
        have : usedDays.contains (List.get _ ⟨_, hlt⟩) = true := by
          exact List.elem_eq_true_of_mem hin
        rw [hmem.2] at this
        exact absurd this (by simp)
  | case8 fuel st ad hlen day combination hget helect classrooms hcl hroom ih =>
      intro st' day' h
      rw [attemptSession] at h
      simp only [if_neg hlen, hget, if_neg helect, if_neg hcl, hroom] at h
      exact ih _ _ h
  | case9 fuel st ad hlen day combination hget helect classrooms hcl room hroom
      st'' hconf ih =>
      intro st' day' h
      rw [attemptSession] at h
      simp only [if_neg hlen, hget, if_neg helect, if_neg hcl, hroom,
        if_pos hconf] at h
      exact ih _ _ h
  | case10 fuel st ad hlen day combination hget helect classrooms hcl room hroom
      st'' hconf =>
      intro st' day' h
      rw [attemptSession] at h
      simp only [if_neg hlen, hget, if_neg helect, if_neg hcl, hroom,
        if_neg hconf, Prod.mk.injEq, Option.some.injEq] at h
      obtain ⟨-, rfl⟩ := h
      have hpos : 0 < (days.filter (fun d => !(usedDays.contains d))).length :=
        Nat.pos_of_ne_zero hlen
      have hlt := Nat.mod_lt (g st.ctr) hpos
      rw [List.get?_eq_get hlt]
      have hmem := List.get_mem (days.filter (fun d => !(usedDays.contains d)))
        _ hlt
      simp only [List.mem_filter, Bool.not_eq_true'] at hmem
      refine ⟨hmem.1, ?_⟩
      · intro hin
        have : usedDays.contains (List.get _ ⟨_, hlt⟩) = true := by
          exact List.elem_eq_true_of_mem hin
        rw [hmem.2] at this
        exact absurd this (by simp)

/-- The used-day list accumulated by the three-session fold stays
duplicate-free. -/
theorem scheduleSessionsAux_nodup (g : Nat → Nat) (c : Course)
    (gkey sec half : String) (rooms : List Room) :
    ∀ (sessions : List (String × String × List SlotCombination))
      (usedDays : List String) (st : HalfState),
      usedDays.Nodup →
      (scheduleSessionsAux g c gkey sec half rooms sessions usedDays st).2.Nodup := by
  intro sessions
  induction sessions with
  | nil => intro usedDays st h; exact h
  | cons s rest ih =>
      intro usedDays st h
      obtain ⟨sessionType, label, combos⟩ := s
      rw [scheduleSessionsAux]
      dsimp only
      rcases hatt : attemptSession g c gkey sec half rooms combos sessionType
          label usedDays (days.length * combos.length * 3) st with ⟨st1, res⟩
      dsimp only
      cases res with
      | some day =>
          apply ih
          have hday := attemptSession_day g c gkey sec half rooms combos
            sessionType label usedDays _ _ _ _ hatt
          simp [List.nodup_append, h, hday.2]
      | none => exact ih _ _ h

/-- **C4.** The recorded assigned days of one regular course (the
`courseSchedule[courseKey]` list, one entry per successfully placed session
of its two lectures and one tutorial) are pairwise distinct: each placed
session of the course lands on its own day. -/
theorem c4_distinct_days (g : Nat → Nat) (gkey sec half : String)
    (rooms : List Room) (lec90 tut60 : List SlotCombination) (c : Course)
    (st : HalfState) :
    (scheduleRegularCourse g gkey sec half rooms lec90 tut60 c st).2.Nodup :=
  scheduleSessionsAux_nodup g c gkey sec half rooms _ [] st List.nodup_nil

/-! ## C8: the semester-half partition -/

/-- **C8.** The semester-half partition of the (normalized) class-scheduler
input: a course is in the First-Half set iff its flag is `'1'` or (its flag
is `'0'` and its credits are at least 3), and in the Second-Half set iff its
flag is `'2'` or `'0'`. -/
theorem c8_semester_partition (raw : List RawCourse) (c : Course) :
    (c ∈ firstHalfCourses (raw.map normalizeCourse) ↔
      c ∈ raw.map normalizeCourse ∧
        (c.semesterHalf = "1" ∨
          (c.semesterHalf = "0" ∧ (3 : Int) ≤ c.credits))) ∧
    (c ∈ secondHalfCourses (raw.map normalizeCourse) ↔
      c ∈ raw.map normalizeCourse ∧
        (c.semesterHalf = "2" ∨ c.semesterHalf = "0")) := by
  constructor
  · rw [firstHalfCourses, List.mem_filter]
    simp only [Bool.or_eq_true, Bool.and_eq_true, decide_eq_true_eq]
  · rw [secondHalfCourses, List.mem_filter]
    simp only [Bool.or_eq_true, decide_eq_true_eq]

/-! ## Concrete witness data for the class scheduler -/

/-- A concrete raw course used by the witnesses (first-half-only lecture). -/
def witnessRawCourse : RawCourse :=
  { code := "C1", name := "N", faculty := "F", type := "", branch := "B",
    sec := none, year := some 1, credits := some 4, semesterHalf := some "1" }

/-- A concrete classroom used by the witnesses. -/
def witnessRoom : Room := { number := "R1", capacity := 10, type := "Classroom" }

/-- The all-zero draw oracle used by the witnesses. -/
def zeroOracle : Nat → Nat := fun _ => 0

/-- The first entry the generator commits on the witness input. -/
def witnessEntry : Entry :=
  { day := "MONDAY", timeSlot := "09:00 - 10:00",
    course := "N - Lecture 1 (1/2)", faculty := "F", room := "R1",
    type := "Lecture", branch := "B", year := 1, sec := "",
    semesterHalf := "First_Half" }

/-- Witness for C5 at a concrete input. -/
theorem c5_elective_protection_witness :
    witnessEntry ∈ generateTimetableWithSemesterSplit zeroOracle
      [witnessRawCourse] [witnessRoom] ∧
    ¬((witnessEntry.day = "TUESDAY" ∨ witnessEntry.day = "THURSDAY") ∧
      (witnessEntry.timeSlot = "17:10 - 17:30" ∨
        witnessEntry.timeSlot = "17:30 - 18:30")) :=
  ⟨by decide, c5_elective_protection zeroOracle [witnessRawCourse] [witnessRoom]
    witnessEntry (by decide)⟩

/-- Witness for C1 at a concrete input. -/
theorem c1_no_double_booking_witness :
    (generateTimetableWithSemesterSplit zeroOracle [witnessRawCourse]
      [witnessRoom]).Pairwise NoClash :=
  c1_no_double_booking zeroOracle [witnessRawCourse] [witnessRoom] (by decide)

/-- Witness for C8 at a concrete input: the witness course (flag `'1'`)
lands in the First-Half set and not in the Second-Half set. -/
theorem c8_semester_partition_witness :
    normalizeCourse witnessRawCourse ∈
      firstHalfCourses ([witnessRawCourse].map normalizeCourse) ∧
    normalizeCourse witnessRawCourse ∉
      secondHalfCourses ([witnessRawCourse].map normalizeCourse) := by
  constructor
  · exact (c8_semester_partition [witnessRawCourse] _).1.mpr (by decide)
  · intro hmem
    have h := (c8_semester_partition [witnessRawCourse] _).2.mp hmem
    revert h
    decide

/-! ## Exam date generator (config/examScheduler.js, `generateExamDates`)

JS `Date` objects parsed from `'YYYY-MM-DD'` strings denote UTC midnights;
they are modelled by calendar triples.  Date comparison (`<=` on timestamps)
is chronological order, which on valid triples coincides with the order of
`dateKey` below; `setDate(getDate() + 1)` is `nextDay`. -/

/-- A calendar date. -/
structure CalDate where
  year : Nat
  month : Nat
  day : Nat
deriving DecidableEq, Repr

/-- Gregorian leap year. -/
def isLeap (y : Nat) : Bool := (y % 4 = 0 && y % 100 ≠ 0) || y % 400 = 0

/-- Days in a month. -/
def daysInMonth (y m : Nat) : Nat :=
  match m with
  | 1 => 31 | 2 => if isLeap y then 29 else 28 | 3 => 31 | 4 => 30
  | 5 => 31 | 6 => 30 | 7 => 31 | 8 => 31 | 9 => 30 | 10 => 31
  | 11 => 30 | 12 => 31 | _ => 30

/-- A valid calendar triple. -/
def ValidDate (d : CalDate) : Prop :=
  1 ≤ d.month ∧ d.month ≤ 12 ∧ 1 ≤ d.day ∧ d.day ≤ daysInMonth d.year d.month

instance ValidDate_decidable (d : CalDate) : Decidable (ValidDate d) :=
  inferInstanceAs (Decidable (_ ∧ _ ∧ _ ∧ _))

/-- The successor date (`setDate(getDate() + 1)` with rollover). -/
def nextDay (d : CalDate) : CalDate :=
  if d.day < daysInMonth d.year d.month then { d with day := d.day + 1 }
  else if d.month < 12 then { year := d.year, month := d.month + 1, day := 1 }
  else { year := d.year + 1, month := 1, day := 1 }

/-- A strictly monotone key for chronological comparison of valid dates. -/
def dateKey (d : CalDate) : Nat := d.year * 372 + d.month * 31 + d.day

theorem nextDay_valid {d : CalDate} (h : ValidDate d) : ValidDate (nextDay d) := by
  obtain ⟨h1, h2, h3, h4⟩ := h
  unfold nextDay ValidDate
  split
  · dsimp only
    exact ⟨h1, h2, by omega, by omega⟩
  · split
    · dsimp only
      refine ⟨by omega, by omega, by omega, ?_⟩
      have : 1 ≤ daysInMonth d.year (d.month + 1) := by
        unfold daysInMonth
        split <;> first | omega | (split <;> omega)
      omega
    · dsimp only
      refine ⟨by omega, by omega, by omega, ?_⟩
      simp [daysInMonth]

theorem daysInMonth_le (y m : Nat) : daysInMonth y m ≤ 31 := by
  unfold daysInMonth
  split <;> first | omega | (split <;> omega)

theorem dateKey_lt_nextDay {d : CalDate} (h : ValidDate d) :
    dateKey d < dateKey (nextDay d) := by
  obtain ⟨h1, h2, h3, h4⟩ := h
  have h31 := daysInMonth_le d.year d.month
  unfold nextDay dateKey
  split
  · simp only; omega
  · split
    · simp only; omega
    · simp only
      have : d.month = 12 := by omega
      omega

/-- Day of the week, 0 = Sunday (Sakamoto's method; models
`Date.prototype.getDay` on UTC midnights). -/
def calDayOfWeek (d : CalDate) : Nat :=
  let t := [0, 3, 2, 5, 0, 3, 5, 1, 4, 6, 2, 4]
  let y := if d.month < 3 then d.year - 1 else d.year
  (y + y / 4 - y / 100 + y / 400 + ((t.get? (d.month - 1)).getD 0) + d.day) % 7

/-- Decimal digit test. -/
def isDigit (c : Char) : Bool := '0' ≤ c && c ≤ '9'

/-- Parse a `'YYYY-MM-DD'` string into a valid calendar date.  Models the
ISO path of the JS `Date` constructor (the documented input format);
out-of-range components or other shapes produce an invalid date (`none`). -/
def parseIsoDate (s : String) : Option CalDate :=
  match s.data with
  | [y1, y2, y3, y4, '-', m1, m2, '-', d1, d2] =>
      if isDigit y1 && isDigit y2 && isDigit y3 && isDigit y4 &&
          isDigit m1 && isDigit m2 && isDigit d1 && isDigit d2 then
        let y := ((digitVal y1 * 10 + digitVal y2) * 10 + digitVal y3) * 10 +
          digitVal y4
        let m := digitVal m1 * 10 + digitVal m2
        let d := digitVal d1 * 10 + digitVal d2
        if 1 ≤ m && m ≤ 12 && 1 ≤ d && d ≤ daysInMonth y m then
          some { year := y, month := m, day := d }
        else none
      else none
  | _ => none

/-- The weekday names (the `days` array of generateExamDates). -/
def weekdayNames : List String :=
  ["Sunday", "Monday", "Tuesday", "Wednesday", "Thursday", "Friday",
   "Saturday"]

/-- The abbreviated month names (the `months` array). -/
def monthNames : List String :=
  ["Jan", "Feb", "Mar", "Apr", "May", "Jun", "Jul", "Aug", "Sep", "Oct",
   "Nov", "Dec"]

/-- `String(n).padStart(2, '0')`. -/
def pad2 (n : Nat) : List Char :=
  if (natChars n).length ≥ 2 then natChars n else '0' :: natChars n

/-- The ISO date string `` `${year}-${month}-${day}` `` with 2-padded month
and day. -/
def isoFormat (d : CalDate) : String :=
  String.mk (natChars d.year ++ '-' :: pad2 d.month ++ '-' :: pad2 d.day)

/-- The display date string `` `${day}-${months[m-1]}-${year}` ``. -/
def displayFormat (d : CalDate) : String :=
  String.mk (pad2 d.day ++
    '-' :: ((monthNames.get? (d.month - 1)).getD "").data ++
    '-' :: natChars d.year)

/-- One record of the generated date list, exactly the object pushed by
`generateExamDates` (`dateObj` is the `new Date(current)` copy). -/
structure DateRec where
  date : String
  displayDate : String
  day : String
  dayOfWeek : Nat
  dateObj : CalDate
deriving DecidableEq, Repr

/-- Build the record for one date. -/
def mkDateRec (d : CalDate) : DateRec :=
  { date := isoFormat d
    displayDate := displayFormat d
    day := (weekdayNames.get? (calDayOfWeek d)).getD ""
    dayOfWeek := calDayOfWeek d
    dateObj := d }

/-- All dates of the inclusive range, oldest first (fuel-driven iteration of
`nextDay` while `current <= end`). -/
def dateRange : Nat → CalDate → CalDate → List CalDate
  | 0, _, _ => []
  | fuel + 1, cur, e =>
      if dateKey cur ≤ dateKey e then cur :: dateRange fuel (nextDay cur) e
      else []

/-- The collection loop of `generateExamDates`: walk the range, skip
Sundays, record the rest. -/
def collectDates : Nat → CalDate → CalDate → List DateRec
  | 0, _, _ => []
  | fuel + 1, cur, e =>
      if dateKey cur ≤ dateKey e then
        (if calDayOfWeek cur ≠ 0 then [mkDateRec cur] else []) ++
          collectDates fuel (nextDay cur) e
      else []

/-- `generateExamDates(startDate, endDate)`: validate both dates, reject
ranges with the start after the end, and collect the non-Sunday dates of
the inclusive range in ascending order. -/
def generateExamDates (startDate endDate : String) :
    Except String (List DateRec) :=
  match parseIsoDate startDate, parseIsoDate endDate with
  | none, _ => .error "Invalid date format. Use YYYY-MM-DD"
  | _, none => .error "Invalid date format. Use YYYY-MM-DD"
  | some s, some e =>
      if dateKey s > dateKey e then
        .error "Start date must be before or equal to end date"
      else
        .ok (collectDates (dateKey e + 1 - dateKey s) s e)

theorem collectDates_eq (fuel : Nat) :
    ∀ cur e, collectDates fuel cur e =
      ((dateRange fuel cur e).filter (fun d => calDayOfWeek d ≠ 0)).map
        mkDateRec := by
  induction fuel with
  | zero => intro cur e; rfl
  | succ fuel ih =>
      intro cur e
      rw [collectDates, dateRange]
      by_cases h : dateKey cur ≤ dateKey e
      · rw [if_pos h, if_pos h, List.filter_cons]
        by_cases hs : calDayOfWeek cur ≠ 0
        · simp [hs, ih]
        · simp only [ne_eq, not_not] at hs
          simp [hs, ih]
      · rw [if_neg h, if_neg h]
        rfl

theorem dateRange_valid (fuel : Nat) :
    ∀ cur e, ValidDate cur →
      ∀ d ∈ dateRange fuel cur e, ValidDate d := by
  induction fuel with
  | zero => intro cur e _ d hd; simp [dateRange] at hd
  | succ fuel ih =>
      intro cur e hv d hd
      rw [dateRange] at hd
      split at hd
      · rcases List.mem_cons.1 hd with rfl | hd'
        · exact hv
        · exact ih _ _ (nextDay_valid hv) _ hd'
      · simp at hd

theorem dateRange_bounds (fuel : Nat) :
    ∀ cur e, ValidDate cur → ∀ d ∈ dateRange fuel cur e,
      dateKey cur ≤ dateKey d ∧ dateKey d ≤ dateKey e := by
  induction fuel with
  | zero => intro cur e _ d hd; simp [dateRange] at hd
  | succ fuel ih =>
      intro cur e hv d hd
      rw [dateRange] at hd
      split at hd
      · rename_i h
        rcases List.mem_cons.1 hd with rfl | hd'
        · exact ⟨Nat.le_refl _, h⟩
        · have := ih _ _ (nextDay_valid hv) _ hd'
          have hlt := dateKey_lt_nextDay hv
          exact ⟨by omega, this.2⟩
      · simp at hd

theorem parseIsoDate_valid {s : String} {d : CalDate}
    (h : parseIsoDate s = some d) : ValidDate d := by
  unfold parseIsoDate at h
  split at h
  · split at h
    · dsimp only at h
      split at h
      · rename_i hcond
        injection h with h
        subst h
        simp only [Bool.and_eq_true, decide_eq_true_eq] at hcond
        obtain ⟨⟨⟨h1, h2⟩, h3⟩, h4⟩ := hcond
        exact ⟨h1, h2, h3, h4⟩
      · exact absurd h (by simp)
    · exact absurd h (by simp)
  · exact absurd h (by simp)

theorem calDayOfWeek_lt (d : CalDate) : calDayOfWeek d < 7 := by
  unfold calDayOfWeek
  exact Nat.mod_lt _ (by omega)

theorem weekday_ne_sunday {k : Nat} (h1 : k < 7) (h2 : k ≠ 0) :
    (weekdayNames.get? k).getD "" ≠ "Sunday" := by
  interval_cases k <;> first | (exact absurd rfl h2) | decide

theorem dateRange_sorted (fuel : Nat) :
    ∀ cur e, ValidDate cur →
      (dateRange fuel cur e).Pairwise (fun a b => dateKey a < dateKey b) := by
  induction fuel with
  | zero => intro cur e _; exact List.Pairwise.nil
  | succ fuel ih =>
      intro cur e hv
      rw [dateRange]
      split
      · refine List.Pairwise.cons ?_ (ih _ _ (nextDay_valid hv))
        intro d hd
        have := (dateRange_bounds fuel (nextDay cur) e (nextDay_valid hv) d hd).1
        have := dateKey_lt_nextDay hv
        omega
      · exact List.Pairwise.nil

/-- C7: `generateExamDates` fails with an error exactly when a date string is
malformed or the start date is after the end date; on success it returns
exactly the non-Sunday dates of the inclusive range, oldest first in strictly
ascending order, each record carrying the ISO date, the display date and the
weekday name of its date. -/
theorem c7_exam_date_generation (startDate endDate : String) :
    (∀ res, generateExamDates startDate endDate = Except.ok res →
      ∃ s e, parseIsoDate startDate = some s ∧ parseIsoDate endDate = some e ∧
        dateKey s ≤ dateKey e ∧
        res = ((dateRange (dateKey e + 1 - dateKey s) s e).filter
          (fun d => calDayOfWeek d ≠ 0)).map mkDateRec ∧
        (∀ r ∈ res, r.day ≠ "Sunday" ∧ r.date = isoFormat r.dateObj ∧
          r.displayDate = displayFormat r.dateObj ∧
          r.day = (weekdayNames.get? (calDayOfWeek r.dateObj)).getD "" ∧
          ValidDate r.dateObj ∧
          dateKey s ≤ dateKey r.dateObj ∧ dateKey r.dateObj ≤ dateKey e) ∧
        res.Pairwise (fun a b => dateKey a.dateObj < dateKey b.dateObj)) ∧
    ((∃ msg, generateExamDates startDate endDate = Except.error msg) ↔
      (parseIsoDate startDate = none ∨ parseIsoDate endDate = none ∨
        ∃ s e, parseIsoDate startDate = some s ∧ parseIsoDate endDate = some e ∧
          dateKey e < dateKey s)) := by
  constructor
  · intro res hres
    unfold generateExamDates at hres
    cases hs : parseIsoDate startDate with
    | none => rw [hs] at hres; exact absurd hres (by simp)
    | some s =>
      cases he : parseIsoDate endDate with
      | none => rw [hs, he] at hres; exact absurd hres (by simp)
      | some e =>
        rw [hs, he] at hres
        dsimp only at hres
        split at hres
        · exact absurd hres (by simp)
        · rename_i hle
          injection hres with hres
          have hvs : ValidDate s := parseIsoDate_valid hs
          refine ⟨s, e, rfl, rfl, by omega, ?_, ?_, ?_⟩
          · rw [← hres, collectDates_eq]
          · intro r hr
            rw [← hres, collectDates_eq] at hr
            obtain ⟨d, hd, rfl⟩ := List.mem_map.1 hr
            obtain ⟨hdr, hp⟩ := List.mem_filter.1 hd
            have hne : calDayOfWeek d ≠ 0 := of_decide_eq_true hp
            have hbnd := dateRange_bounds _ _ _ hvs _ hdr
            exact ⟨weekday_ne_sunday (calDayOfWeek_lt d) hne, rfl, rfl, rfl,
              dateRange_valid _ _ _ hvs _ hdr, hbnd.1, hbnd.2⟩
          · rw [← hres, collectDates_eq]
            refine List.pairwise_map.mpr ?_
            exact List.Pairwise.sublist (List.filter_sublist _)
              (dateRange_sorted _ _ _ hvs)
  · constructor
    · rintro ⟨msg, hmsg⟩
      unfold generateExamDates at hmsg
      cases hs : parseIsoDate startDate with
      | none => exact Or.inl rfl
      | some s =>
        cases he : parseIsoDate endDate with
        | none => exact Or.inr (Or.inl rfl)
        | some e =>
          rw [hs, he] at hmsg
          dsimp only at hmsg
          split at hmsg
          · rename_i hgt
            exact Or.inr (Or.inr ⟨s, e, rfl, rfl, by omega⟩)
          · exact absurd hmsg (by simp)
    · intro hcond
      unfold generateExamDates
      rcases hcond with h | h | ⟨s, e, hs, he, hlt⟩
      · rw [h]; cases parseIsoDate endDate <;> exact ⟨_, rfl⟩
      · rw [h]; cases parseIsoDate startDate <;> exact ⟨_, rfl⟩
      · rw [hs, he]; dsimp only
        rw [if_pos (by omega)]
        exact ⟨_, rfl⟩

/-- A concrete run of the C7 theorem: reversed dates produce an error, and a
valid three-day range containing a Sunday is accepted. -/
theorem c7_exam_date_generation_witness :
    (∃ msg, generateExamDates "2025-11-22" "2025-11-20" = Except.error msg) ∧
    (∃ res, generateExamDates "2025-11-21" "2025-11-24" = Except.ok res ∧
      ∃ s e, parseIsoDate "2025-11-21" = some s ∧
        parseIsoDate "2025-11-24" = some e ∧ dateKey s ≤ dateKey e ∧
        res = ((dateRange (dateKey e + 1 - dateKey s) s e).filter
          (fun d => calDayOfWeek d ≠ 0)).map mkDateRec ∧
        (∀ r ∈ res, r.day ≠ "Sunday" ∧ r.date = isoFormat r.dateObj ∧
          r.displayDate = displayFormat r.dateObj ∧
          r.day = (weekdayNames.get? (calDayOfWeek r.dateObj)).getD "" ∧
          ValidDate r.dateObj ∧
          dateKey s ≤ dateKey r.dateObj ∧ dateKey r.dateObj ≤ dateKey e) ∧
        res.Pairwise (fun a b => dateKey a.dateObj < dateKey b.dateObj)) := by
  constructor
  · exact (c7_exam_date_generation "2025-11-22" "2025-11-20").2.mpr
      (Or.inr (Or.inr ⟨⟨2025, 11, 22⟩, ⟨2025, 11, 20⟩, by decide, by decide,
        by decide⟩))
  · exact ⟨_, rfl, (c7_exam_date_generation "2025-11-21" "2025-11-24").1 _ rfl⟩

/-! ## Exam scheduler (config/examScheduler.js, `generateExamSchedule`)

The `invigilators` argument of the JS function is first mapped to a list of
name strings (`typeof inv === 'string' ? inv : (inv.name || ...)`); the model
takes that normalized name list directly.  `console` output is ignored.
JS numeric course fields read through `parseInt(x) || default` are modelled
as `Option Nat` where a missing or unparsable or zero value falls back to
the default. -/

/-- `x || default` on strings: the empty string is falsy. -/
def jsOrStr (o : Option String) (d : String) : String :=
  match o with
  | some s => if s = "" then d else s
  | none => d

/-- `parseInt(x) || default` on naturals: zero and failure are falsy. -/
def jsOrNat (o : Option Nat) (d : Nat) : Nat :=
  match o with
  | some n => if n = 0 then d else n
  | none => d

/-- `x || default` on integer credit values: zero and absence are falsy. -/
def jsOrInt (o : Option Int) (d : Int) : Int :=
  match o with
  | some n => if n = 0 then d else n
  | none => d

/-- Hash-object membership: is this exact key marked? -/
def hasKey (l : List String) (k : String) : Bool :=
  l.any (fun x => decide (x = k))

/-- An exam-scheduler course record (the fields the function reads). -/
structure ExamCourse where
  code : Option String
  name : Option String
  faculty : Option String
  type : Option String
  branch : Option String
  year : Option Nat
  students : Option Nat
  credits : Option Int
deriving DecidableEq, Repr

/-- An exam room; only its `number` is read. -/
structure ExamRoom where
  number : String
deriving DecidableEq, Repr

/-- One pushed exam-schedule entry (`examEntry`). -/
structure ExamEntry where
  date : String
  day : String
  timeSlot : String
  courseCode : String
  courseName : String
  credits : Int
  branch : String
  year : Nat
  students : Nat
  rooms : List String
  invigilators : List String
  pairs : List (String × String)
deriving DecidableEq, Repr

/-- The mutable scheduling state: pushed entries plus the invigilator and
room occupancy key sets. -/
structure ExamState where
  schedule : List ExamEntry
  invigSched : List String
  roomSched : List String
deriving Repr

/-- `parseTimeSlot`: trim, and classify as morning when the string mentions
an hour from 09 to 11. -/
def parseTimeSlot (s : String) : String × String :=
  let trimmed := jsTrim s
  (trimmed,
    if strIncludes trimmed "09:" || strIncludes trimmed "10:" ||
        strIncludes trimmed "11:" then "Morning Session"
    else "Afternoon Session")

/-- The `examTimes` list: parse the present (truthy) slots, defaulting to a
single morning slot. -/
def examTimes (t1 t2 : Option String) : List (String × String) :=
  let l :=
    (match t1 with
     | some s => if s = "" then [] else [parseTimeSlot s]
     | none => []) ++
    (match t2 with
     | some s => if s = "" then [] else [parseTimeSlot s]
     | none => [])
  if l.isEmpty then [("09:00 - 12:00", "Morning Session")] else l

/-- `(course.branch || '').trim().toUpperCase()`. -/
def examBranch (c : ExamCourse) : String := jsToUpper (jsTrim (c.branch.getD ""))

/-- `parseInt(course.year) || 1`. -/
def examYear (c : ExamCourse) : Nat := jsOrNat c.year 1

/-- The `${branch}-Year${year}` grouping key of an exam course. -/
def examGroupKeyOf (c : ExamCourse) : String :=
  examBranch c ++ "-Year" ++ jsNat (examYear c)

/-- `theoryCourses`: keep the courses whose type does not contain `'lab'`
case-insensitively. -/
def examEligible (courses : List ExamCourse) : List ExamCourse :=
  courses.filter (fun c => !strIncludes (jsToLower (c.type.getD "")) "lab")

/-- Append a course to its bucket, creating the bucket at the end on first
use (JS object insertion order). -/
def addExamGroup (groups : List (String × List ExamCourse)) (key : String)
    (c : ExamCourse) : List (String × List ExamCourse) :=
  match groups with
  | [] => [(key, [c])]
  | (k, cs) :: rest =>
      if k = key then (k, cs ++ [c]) :: rest
      else (k, cs) :: addExamGroup rest key c

/-- `coursesByBranchYear`: group the eligible courses, skipping records with
an empty branch. -/
def examGroupsOf (courses : List ExamCourse) :
    List (String × List ExamCourse) :=
  courses.foldl
    (fun gs c =>
      if examBranch c = "" then gs
      else addExamGroup gs (examGroupKeyOf c) c) []

/-- The characters after the first occurrence of `"Year"`
(`key.split('Year')[1]`, whose leading digits `parseInt` then reads). -/
def afterYearChars : List Char → List Char
  | [] => []
  | 'Y' :: 'e' :: 'a' :: 'r' :: rest => rest
  | _ :: rest => afterYearChars rest

/-- `parseInt(key.split('Year')[1])`: the decimal number following
`"Year"` in a grouping key (0 when no digits follow, a case the generated
keys never produce). -/
def yearOfKey (k : String) : Nat :=
  decodeDigits ((afterYearChars k.data).takeWhile isDigit)

/-- The sort comparator of `sortedGroups`: ascending year, then lexicographic
key order (modelling `localeCompare` by code-unit order, with which it agrees
on the ASCII keys the grouping builds). -/
def examKeyLe (a b : String) : Bool :=
  decide (yearOfKey a < yearOfKey b) ||
    (decide (yearOfKey a = yearOfKey b) && strLe a b)

/-- Insertion step of the group-key sort. -/
def insertExamKey (x : String) : List String → List String
  | [] => [x]
  | y :: ys => if examKeyLe x y then x :: y :: ys else y :: insertExamKey x ys

/-- Sort the group keys by the exam comparator. -/
def sortExamKeys : List String → List String
  | [] => []
  | x :: xs => insertExamKey x (sortExamKeys xs)

/-- `groupKey.split('-')[0]`, the branch component stored into each entry. -/
def branchOfKey (k : String) : String :=
  match splitDash k.data with
  | b :: _ => String.mk b
  | [] => ""

/-- The `${name}-${date}-${slot}` invigilator occupancy key (ISO date). -/
def invigKey (name date slot : String) : String :=
  name ++ "-" ++ date ++ "-" ++ slot

/-- The `${room.number}-${date}-${slot}` room occupancy key (ISO date). -/
def examRoomKey (number date slot : String) : String :=
  number ++ "-" ++ date ++ "-" ++ slot

/-- Pick the invigilator for allocation index `i`: the course faculty if
listed, free and `i = 0`; otherwise the first free name; otherwise the
unmarked fallback `invigilatorNames[i % length] || 'TBA'`, which does not
reserve the name. -/
def pickInvigilator (invigNames : List String)
    (courseFaculty date slot : String) (i : Nat) (sched : List String) :
    String × List String :=
  if hasKey invigNames courseFaculty &&
      !hasKey sched (invigKey courseFaculty date slot) && i == 0 then
    (courseFaculty, invigKey courseFaculty date slot :: sched)
  else
    match invigNames.find? (fun n => !hasKey sched (invigKey n date slot)) with
    | some n => (n, invigKey n date slot :: sched)
    | none =>
        (match invigNames.get? (i % invigNames.length) with
         | some n => if n = "" then "TBA" else n
         | none => "TBA", sched)

/-- The allocation loop
`for (i = 0; i < roomsNeeded && i < availableRooms.length; i++)`: walk the
available rooms, and while under the room budget pair each room with an
invigilator, marking the room key; returns the room–invigilator pairs and
the updated invigilator and room key sets. -/
def allocLoop (invigNames : List String) (courseFaculty date slot : String) :
    List ExamRoom → Nat → Nat → List String → List String →
      List (String × String) × List String × List String
  | [], _, _, invigSched, roomSched => ([], invigSched, roomSched)
  | room :: rest, i, need, invigSched, roomSched =>
      if i < need then
        let pick := pickInvigilator invigNames courseFaculty date slot i
          invigSched
        let tail := allocLoop invigNames courseFaculty date slot rest (i + 1)
          need pick.2 (examRoomKey room.number date slot :: roomSched)
        ((room.number, pick.1) :: tail.1, tail.2)
      else ([], invigSched, roomSched)

/-- Build the pushed `examEntry` object. -/
def mkExamEntry (slot branch : String) (c : ExamCourse) (examDate : DateRec)
    (totalStudents : Nat) (pairs : List (String × String)) : ExamEntry :=
  { date := examDate.displayDate
    day := examDate.day
    timeSlot := slot
    courseCode := jsOrStr c.code "N/A"
    courseName := jsOrStr c.name "Unnamed Course"
    credits := jsOrInt c.credits 3
    branch := branch
    year := jsOrNat c.year 1
    students := totalStudents
    rooms := pairs.map Prod.fst
    invigilators := pairs.map Prod.snd
    pairs := pairs }

/-- Schedule one course of a group at the current date index: skip when the
dates are exhausted, otherwise compute the room budget
(`Math.ceil(students / 40)` with `studentsPerRoom = 40`), filter the rooms
still free at this ISO date and slot, run the allocation loop, push the
entry and advance the date index. -/
def scheduleCourse (invigNames : List String) (rooms : List ExamRoom)
    (dates : List DateRec) (slot branch : String) (c : ExamCourse)
    (st : ExamState) (dateIndex : Nat) : ExamState × Nat :=
  if h : dateIndex < dates.length then
    let examDate := dates.get ⟨dateIndex, h⟩
    let courseFaculty := jsTrim (jsOrStr c.faculty "TBA")
    let totalStudents := jsOrNat c.students 60
    let roomsNeeded := (totalStudents + 39) / 40
    let availableRooms := rooms.filter
      (fun r => !hasKey st.roomSched (examRoomKey r.number examDate.date slot))
    let res := allocLoop invigNames courseFaculty examDate.date slot
      availableRooms 0 roomsNeeded st.invigSched st.roomSched
    ({ schedule :=
        st.schedule ++ [mkExamEntry slot branch c examDate totalStudents res.1]
       invigSched := res.2.1
       roomSched := res.2.2 }, dateIndex + 1)
  else (st, dateIndex)

/-- Schedule one branch-year group: one exam per date, `dateIndex` starting
at 0. -/
def processExamGroup (invigNames : List String) (rooms : List ExamRoom)
    (dates : List DateRec) (slot gkey : String) (cs : List ExamCourse)
    (st : ExamState) : ExamState :=
  (cs.foldl
    (fun acc c =>
      scheduleCourse invigNames rooms dates slot (branchOfKey gkey) c
        acc.1 acc.2)
    (st, 0)).1

/-- Process the sorted group keys in order. -/
def examFold (invigNames : List String) (rooms : List ExamRoom)
    (dates : List DateRec) (slot : String)
    (groups : List (String × List ExamCourse)) (keys : List String)
    (st : ExamState) : ExamState :=
  keys.foldl
    (fun st k =>
      match groups.lookup k with
      | some cs => processExamGroup invigNames rooms dates slot k cs st
      | none => st)
    st

/-- `generateExamSchedule(courses, invigilators, rooms, startDate, endDate,
timeSlot1, timeSlot2)`: generate the exam dates (propagating their errors),
reject an empty date list, and schedule every eligible course group by group
in sorted key order, always at the first time slot. -/
def generateExamSchedule (courses : List ExamCourse)
    (invigNames : List String) (rooms : List ExamRoom)
    (startDate endDate : String) (timeSlot1 timeSlot2 : Option String) :
    Except String (List ExamEntry) :=
  match generateExamDates startDate endDate with
  | .error msg => .error msg
  | .ok dates =>
      if dates.length = 0 then
        .error "No valid exam dates available in the given range"
      else
        let slot := ((examTimes timeSlot1 timeSlot2).headD
          ("09:00 - 12:00", "Morning Session")).1
        let groups := examGroupsOf (examEligible courses)
        .ok (examFold invigNames rooms dates slot groups
          (sortExamKeys (groups.map Prod.fst))
          { schedule := [], invigSched := [], roomSched := [] }).schedule

/-! ## Display-date injectivity on valid dates -/

theorem pad2_len : ∀ n < 100, (pad2 n).length = 2 := by decide

set_option maxRecDepth 4000 in
theorem pad2_inj100 : ∀ a < 100, ∀ b < 100, pad2 a = pad2 b → a = b := by
  decide

theorem monthChars_len :
    ∀ m < 12, (((monthNames.get? m).getD "").data).length = 3 := by decide

theorem monthChars_inj : ∀ a < 12, ∀ b < 12,
    ((monthNames.get? a).getD "").data = ((monthNames.get? b).getD "").data →
    a = b := by decide

/-- Two valid dates with the same display string are equal. -/
theorem displayFormat_inj {a b : CalDate} (ha : ValidDate a)
    (hb : ValidDate b) (h : displayFormat a = displayFormat b) : a = b := by
  obtain ⟨ha1, ha2, ha3, ha4⟩ := ha
  obtain ⟨hb1, hb2, hb3, hb4⟩ := hb
  have hda := daysInMonth_le a.year a.month
  have hdb := daysInMonth_le b.year b.month
  unfold displayFormat at h
  injection h with h
  have hlen6 : (pad2 a.day ++
      '-' :: ((monthNames.get? (a.month - 1)).getD "").data).length =
      (pad2 b.day ++
        '-' :: ((monthNames.get? (b.month - 1)).getD "").data).length := by
    simp only [List.length_append, List.length_cons]
    rw [pad2_len a.day (by omega), pad2_len b.day (by omega),
      monthChars_len _ (by omega), monthChars_len _ (by omega)]
  obtain ⟨h12, h4⟩ := List.append_inj h hlen6
  injection h4 with _ h4
  have hlen2 : (pad2 a.day).length = (pad2 b.day).length := by
    rw [pad2_len a.day (by omega), pad2_len b.day (by omega)]
  obtain ⟨h1, h2⟩ := List.append_inj h12 hlen2
  injection h2 with _ h3
  have hyear : a.year = b.year := natChars_injective h4
  have hmonth : a.month = b.month := by
    have := monthChars_inj _ (by omega) _ (by omega) h3
    omega
  have hday : a.day = b.day := pad2_inj100 a.day (by omega) b.day (by omega) h1
  obtain ⟨y1, m1, d1⟩ := a
  obtain ⟨y2, m2, d2⟩ := b
  simp only [CalDate.mk.injEq]
  exact ⟨hyear, hmonth, hday⟩

/-! ## Allocation-loop facts -/

theorem hasKey_cons (x : String) (l : List String) (k : String) :
    hasKey (x :: l) k = (decide (x = k) || hasKey l k) := by
  simp [hasKey, List.any_cons]

theorem hasKey_cons_of (x : String) {l : List String} {k : String}
    (h : hasKey l k = true) : hasKey (x :: l) k = true := by
  rw [hasKey_cons, h, Bool.or_true]

/-- The allocation loop only hands out rooms from its input list, only adds
room keys, marks every allocated room's key and stays within the room
budget. -/
theorem allocLoop_spec (invigNames : List String)
    (courseFaculty date slot : String) (rooms : List ExamRoom) :
    ∀ (i need : Nat) (isch rsch : List String),
      (∀ p ∈ (allocLoop invigNames courseFaculty date slot rooms i need
          isch rsch).1, ∃ room ∈ rooms, p.1 = room.number) ∧
      (∀ k, hasKey rsch k = true →
        hasKey (allocLoop invigNames courseFaculty date slot rooms i need
          isch rsch).2.2 k = true) ∧
      (∀ p ∈ (allocLoop invigNames courseFaculty date slot rooms i need
          isch rsch).1,
        hasKey (allocLoop invigNames courseFaculty date slot rooms i need
          isch rsch).2.2 (examRoomKey p.1 date slot) = true) ∧
      (allocLoop invigNames courseFaculty date slot rooms i need
        isch rsch).1.length ≤ need - i := by
  induction rooms with
  | nil =>
      intro i need isch rsch
      refine ⟨?_, ?_, ?_, ?_⟩ <;> simp [allocLoop]
  | cons room rest ih =>
      intro i need isch rsch
      rw [allocLoop]
      by_cases hin : i < need
      · rw [if_pos hin]
        dsimp only
        obtain ⟨iha, ihb, ihc, ihd⟩ := ih (i + 1) need
          (pickInvigilator invigNames courseFaculty date slot i isch).2
          (examRoomKey room.number date slot :: rsch)
        refine ⟨?_, ?_, ?_, ?_⟩
        · intro p hp
          rcases List.mem_cons.1 hp with rfl | hp'
          · exact ⟨room, List.mem_cons_self _ _, rfl⟩
          · obtain ⟨r, hr, hpr⟩ := iha p hp'
            exact ⟨r, List.mem_cons_of_mem _ hr, hpr⟩
        · intro k hk
          exact ihb k (hasKey_cons_of _ hk)
        · intro p hp
          rcases List.mem_cons.1 hp with rfl | hp'
          · refine ihb _ ?_
            rw [hasKey_cons]
            simp
          · exact ihc p hp'
        · simp only [List.length_cons]
          omega
      · rw [if_neg hin]
        refine ⟨?_, ?_, ?_, ?_⟩ <;> simp only [List.length_cons, List.length_nil]
        · intro p hp; simp at hp
        · intro k hk; exact hk
        · intro p hp; simp at hp
        · omega

/-! ## Well-formedness of the generated date list -/

/-- Every record of the list is the record of a valid date, and the
underlying dates strictly ascend. -/
def DatesWF (dates : List DateRec) : Prop :=
  (∀ r ∈ dates, ValidDate r.dateObj ∧ r = mkDateRec r.dateObj) ∧
  dates.Pairwise (fun r1 r2 => dateKey r1.dateObj < dateKey r2.dateObj)

theorem generateExamDates_wf {sd ed : String} {dates : List DateRec}
    (h : generateExamDates sd ed = Except.ok dates) : DatesWF dates := by
  unfold generateExamDates at h
  cases hs : parseIsoDate sd with
  | none => rw [hs] at h; exact absurd h (by simp)
  | some s =>
      cases he : parseIsoDate ed with
      | none => rw [hs, he] at h; exact absurd h (by simp)
      | some e =>
          rw [hs, he] at h
          dsimp only at h
          split at h
          · exact absurd h (by simp)
          · injection h with h
            subst h
            constructor
            · intro r hr
              rw [collectDates_eq] at hr
              obtain ⟨d, hd, rfl⟩ := List.mem_map.1 hr
              exact ⟨dateRange_valid _ _ _ (parseIsoDate_valid hs) _
                (List.mem_filter.1 hd).1, rfl⟩
            · rw [collectDates_eq]
              refine List.pairwise_map.mpr ?_
              exact List.Pairwise.sublist (List.filter_sublist _)
                (dateRange_sorted _ _ _ (parseIsoDate_valid hs))

/-- In a well-formed date list, equal display dates force equal ISO dates. -/
theorem DatesWF.display_to_iso {dates : List DateRec} (h : DatesWF dates)
    {r1 r2 : DateRec} (h1 : r1 ∈ dates) (h2 : r2 ∈ dates)
    (hd : r1.displayDate = r2.displayDate) : r1.date = r2.date := by
  obtain ⟨hv, _⟩ := h
  obtain ⟨hval1, hrec1⟩ := hv r1 h1
  obtain ⟨hval2, hrec2⟩ := hv r2 h2
  rw [hrec1, hrec2] at hd
  have hobj := displayFormat_inj hval1 hval2 hd
  rw [hrec1, hrec2]
  unfold mkDateRec
  rw [hobj]

/-- In a well-formed date list, records at distinct positions carry distinct
display dates. -/
theorem DatesWF.get_display_ne {dates : List DateRec} (h : DatesWF dates)
    {i j : Nat} (hi : i < dates.length) (hj : j < dates.length)
    (hij : i ≠ j) :
    (dates.get ⟨i, hi⟩).displayDate ≠ (dates.get ⟨j, hj⟩).displayDate := by
  obtain ⟨hv, hp⟩ := h
  have hkey : dateKey (dates.get ⟨i, hi⟩).dateObj ≠
      dateKey (dates.get ⟨j, hj⟩).dateObj := by
    rcases Nat.lt_or_ge i j with hlt | hge
    · have := List.pairwise_iff_get.1 hp ⟨i, hi⟩ ⟨j, hj⟩ hlt
      omega
    · have hlt : j < i := by omega
      have := List.pairwise_iff_get.1 hp ⟨j, hj⟩ ⟨i, hi⟩ hlt
      omega
  intro hdisp
  obtain ⟨hval1, hrec1⟩ := hv _ (List.get_mem dates i hi)
  obtain ⟨hval2, hrec2⟩ := hv _ (List.get_mem dates j hj)
  rw [hrec1, hrec2] at hdisp
  exact hkey (by rw [displayFormat_inj hval1 hval2 hdisp])

/-! ## Shape of one scheduling step -/

theorem scheduleCourse_skip (invigNames : List String)
    (rooms : List ExamRoom) (dates : List DateRec) (slot branch : String)
    (c : ExamCourse) (st : ExamState) (idx : Nat)
    (h : ¬ idx < dates.length) :
    scheduleCourse invigNames rooms dates slot branch c st idx = (st, idx) := by
  unfold scheduleCourse
  rw [dif_neg h]

theorem scheduleCourse_hit (invigNames : List String)
    (rooms : List ExamRoom) (dates : List DateRec) (slot branch : String)
    (c : ExamCourse) (st : ExamState) (idx : Nat)
    (h : idx < dates.length) :
    ∃ pairs isch rsch,
      scheduleCourse invigNames rooms dates slot branch c st idx =
        ({ schedule := st.schedule ++ [mkExamEntry slot branch c
            (dates.get ⟨idx, h⟩) (jsOrNat c.students 60) pairs]
           invigSched := isch
           roomSched := rsch }, idx + 1) ∧
      (∀ p ∈ pairs, ∃ room ∈ rooms.filter (fun r => !hasKey st.roomSched
        (examRoomKey r.number (dates.get ⟨idx, h⟩).date slot)),
        p.1 = room.number) ∧
      (∀ k, hasKey st.roomSched k = true → hasKey rsch k = true) ∧
      (∀ p ∈ pairs, hasKey rsch
        (examRoomKey p.1 (dates.get ⟨idx, h⟩).date slot) = true) ∧
      pairs.length ≤ (jsOrNat c.students 60 + 39) / 40 := by
  unfold scheduleCourse
  rw [dif_pos h]
  dsimp only
  obtain ⟨la, lb, lc, ld⟩ := allocLoop_spec invigNames
    (jsTrim (jsOrStr c.faculty "TBA")) (dates.get ⟨idx, h⟩).date slot
    (rooms.filter (fun r => !hasKey st.roomSched
      (examRoomKey r.number (dates.get ⟨idx, h⟩).date slot)))
    0 ((jsOrNat c.students 60 + 39) / 40) st.invigSched st.roomSched
  exact ⟨_, _, _, rfl, la, lb, lc, by omega⟩

/-! ## No room double-booking (exam scheduler) -/

/-- Two entries sharing a date and a time slot use disjoint room lists. -/
def RoomDisj (e1 e2 : ExamEntry) : Prop :=
  e1.date = e2.date → e1.timeSlot = e2.timeSlot → ∀ r ∈ e1.rooms, r ∉ e2.rooms

/-- The room invariant: every entry sits at the single slot, its display
date belongs to the date list, its rooms are all marked in the room key set
at its ISO date, and room lists at equal (date, slot) are disjoint. -/
def Inv10 (dates : List DateRec) (slot : String) (st : ExamState) : Prop :=
  (∀ e ∈ st.schedule, e.timeSlot = slot ∧ ∃ d ∈ dates,
    e.date = d.displayDate ∧
    ∀ r ∈ e.rooms, hasKey st.roomSched (examRoomKey r d.date slot) = true) ∧
  st.schedule.Pairwise RoomDisj

theorem scheduleCourse_inv10 {dates : List DateRec} {slot : String}
    (hwf : DatesWF dates) (invigNames : List String) (rooms : List ExamRoom)
    (branch : String) (c : ExamCourse) {st : ExamState} (idx : Nat)
    (hinv : Inv10 dates slot st) :
    Inv10 dates slot
      (scheduleCourse invigNames rooms dates slot branch c st idx).1 := by
  by_cases h : idx < dates.length
  · obtain ⟨pairs, isch, rsch, heq, ha, hb, hc, _⟩ :=
      scheduleCourse_hit invigNames rooms dates slot branch c st idx h
    rw [heq]
    obtain ⟨hmark, hpair⟩ := hinv
    constructor
    · intro e he
      rcases List.mem_append.1 he with he' | he'
      · obtain ⟨hts, d, hd, hdate, hkeys⟩ := hmark e he'
        exact ⟨hts, d, hd, hdate, fun r hr => hb _ (hkeys r hr)⟩
      · rw [List.mem_singleton] at he'
        subst he'
        refine ⟨rfl, dates.get ⟨idx, h⟩, List.get_mem dates idx h, rfl, ?_⟩
        intro r hr
        obtain ⟨p, hp, rfl⟩ := List.mem_map.1 hr
        exact hc p hp
    · refine List.pairwise_append.mpr ⟨hpair, List.pairwise_singleton _ _, ?_⟩
      intro e he e' he'
      rw [List.mem_singleton] at he'
      subst he'
      intro hdate htime r hr hr'
      obtain ⟨hts, d, hd, hdateE, hkeys⟩ := hmark e he
      have hdd : d.displayDate = (dates.get ⟨idx, h⟩).displayDate := by
        rw [← hdateE]
        exact hdate
      have hiso : d.date = (dates.get ⟨idx, h⟩).date :=
        hwf.display_to_iso hd (List.get_mem dates idx h) hdd
      have hkey := hkeys r hr
      obtain ⟨p, hp, rfl⟩ := List.mem_map.1 hr'
      obtain ⟨room, hroom, hpr⟩ := ha p hp
      obtain ⟨hroomMem, hfilt⟩ := List.mem_filter.1 hroom
      rw [Bool.not_eq_true'] at hfilt
      rw [hpr, hiso] at hkey
      rw [hfilt] at hkey
      exact Bool.false_ne_true hkey
  · rw [scheduleCourse_skip invigNames rooms dates slot branch c st idx h]
    exact hinv

theorem groupFold_inv10 {dates : List DateRec} {slot : String}
    (hwf : DatesWF dates) (invigNames : List String) (rooms : List ExamRoom)
    (k : String) :
    ∀ (cs : List ExamCourse) (acc : ExamState × Nat),
      Inv10 dates slot acc.1 →
      Inv10 dates slot ((cs.foldl
        (fun acc c => scheduleCourse invigNames rooms dates slot
          (branchOfKey k) c acc.1 acc.2) acc).1) := by
  intro cs
  induction cs with
  | nil => intro acc hacc; exact hacc
  | cons c rest ih =>
      intro acc hacc
      rw [List.foldl_cons]
      exact ih _ (scheduleCourse_inv10 hwf _ _ _ _ _ hacc)

theorem examFold_inv10 {dates : List DateRec} {slot : String}
    (hwf : DatesWF dates) (invigNames : List String) (rooms : List ExamRoom)
    (groups : List (String × List ExamCourse)) :
    ∀ (keys : List String) (st : ExamState), Inv10 dates slot st →
      Inv10 dates slot
        (examFold invigNames rooms dates slot groups keys st) := by
  intro keys
  induction keys with
  | nil => intro st h; exact h
  | cons k ks ih =>
      intro st h
      have hstep : examFold invigNames rooms dates slot groups (k :: ks) st =
          examFold invigNames rooms dates slot groups ks
            (match groups.lookup k with
             | some cs => processExamGroup invigNames rooms dates slot k cs st
             | none => st) := rfl
      rw [hstep]
      apply ih
      cases hlk : groups.lookup k with
      | none => exact h
      | some cs => exact groupFold_inv10 hwf invigNames rooms k cs (st, 0) h

/-- C10: in the exam-schedule output no room is double-booked: two distinct
assignments sharing a (display) date and a time slot allocate disjoint room
lists. -/
theorem c10_no_room_double_booking (courses : List ExamCourse)
    (invigNames : List String) (rooms : List ExamRoom)
    (startDate endDate : String) (timeSlot1 timeSlot2 : Option String)
    (l : List ExamEntry)
    (h : generateExamSchedule courses invigNames rooms startDate endDate
      timeSlot1 timeSlot2 = Except.ok l) :
    l.Pairwise (fun e1 e2 => e1.date = e2.date → e1.timeSlot = e2.timeSlot →
      ∀ r ∈ e1.rooms, r ∉ e2.rooms) := by
  unfold generateExamSchedule at h
  cases hd : generateExamDates startDate endDate with
  | error msg => rw [hd] at h; exact absurd h (by simp)
  | ok dates =>
      rw [hd] at h
      dsimp only at h
      split at h
      · exact absurd h (by simp)
      · injection h with h
        subst h
        exact (examFold_inv10 (generateExamDates_wf hd) invigNames rooms _ _ _
          ⟨fun e he => absurd he (List.not_mem_nil e),
            List.Pairwise.nil⟩).2

/-- A two-group input on a single exam date: both groups land on the same
date and slot, so room and invigilator contention is exercised. -/
def twoGroupCourses : List ExamCourse :=
  [{ code := some "A1", name := some "Algo", faculty := none,
     type := some "Theory", branch := some "A", year := some 1,
     students := some 40, credits := some 3 },
   { code := some "B1", name := some "Base", faculty := none,
     type := some "Theory", branch := some "B", year := some 1,
     students := some 80, credits := some 3 }]

/-- The two rooms of the concrete exam runs. -/
def twoRooms : List ExamRoom := [⟨"R1"⟩, ⟨"R2"⟩]

/-- A concrete run of the C10 theorem: two groups share the single date and
slot, and the room-disjointness holds on the produced schedule. -/
theorem c10_no_room_double_booking_witness :
    ∃ l, generateExamSchedule twoGroupCourses ["I"] twoRooms
      "2025-11-20" "2025-11-20" (some "09:00 - 12:00") none = Except.ok l ∧
    l.Pairwise (fun e1 e2 => e1.date = e2.date → e1.timeSlot = e2.timeSlot →
      ∀ r ∈ e1.rooms, r ∉ e2.rooms) :=
  ⟨_, rfl, c10_no_room_double_booking twoGroupCourses ["I"] twoRooms
    "2025-11-20" "2025-11-20" (some "09:00 - 12:00") none _ rfl⟩

/-! ## Well-formedness of the exam grouping -/

/-- Every bucket member generated its bucket's key and comes from `S`. -/
def ExamGroupsWF (S : List ExamCourse)
    (groups : List (String × List ExamCourse)) : Prop :=
  ∀ p ∈ groups, ∀ c ∈ p.2, p.1 = examGroupKeyOf c ∧ c ∈ S

theorem addExamGroup_wf {S : List ExamCourse}
    {groups : List (String × List ExamCourse)} {key : String}
    {c : ExamCourse} (h : ExamGroupsWF S groups)
    (hkey : key = examGroupKeyOf c) (hc : c ∈ S) :
    ExamGroupsWF S (addExamGroup groups key c) := by
  induction groups with
  | nil =>
      intro p hp c' hc'
      simp only [addExamGroup, List.mem_singleton] at hp
      subst hp
      simp only [List.mem_singleton] at hc'
      subst hc'
      exact ⟨hkey, hc⟩
  | cons q rest ih =>
      obtain ⟨k, cs⟩ := q
      intro p hp c' hc'
      rw [addExamGroup] at hp
      by_cases hk : k = key
      · rw [if_pos hk] at hp
        rcases List.mem_cons.1 hp with rfl | hp'
        · simp only at hc'
          rcases List.mem_append.1 hc' with hc'' | hc''
          · exact h _ (List.mem_cons_self _ _) _ hc''
          · simp only [List.mem_singleton] at hc''
            subst hc''
            exact ⟨hk.trans hkey, hc⟩
        · exact h _ (List.mem_cons_of_mem _ hp') _ hc'
      · rw [if_neg hk] at hp
        rcases List.mem_cons.1 hp with rfl | hp'
        · exact h _ (List.mem_cons_self _ _) _ hc'
        · exact ih (fun q hq c'' hc'' => h q (List.mem_cons_of_mem _ hq) c'' hc'')
            _ hp' _ hc'

theorem examGroupsOf_wf (courses : List ExamCourse) :
    ExamGroupsWF courses (examGroupsOf courses) := by
  unfold examGroupsOf
  have main : ∀ (l acc : List ExamCourse)
      (groups : List (String × List ExamCourse)),
      (∀ c ∈ l, c ∈ acc) → ExamGroupsWF acc groups →
      ExamGroupsWF acc (l.foldl
        (fun gs c =>
          if examBranch c = "" then gs
          else addExamGroup gs (examGroupKeyOf c) c) groups) := by
    intro l
    induction l with
    | nil => intro acc groups _ hwf; exact hwf
    | cons c rest ih =>
        intro acc groups hsub hwf
        rw [List.foldl_cons]
        apply ih
        · intro c' hc'; exact hsub c' (List.mem_cons_of_mem _ hc')
        · by_cases hskip : examBranch c = ""
          · simp only [hskip, if_true]; exact hwf
          · simp only [hskip, if_false]
            exact addExamGroup_wf hwf rfl (hsub c (List.mem_cons_self _ _))
  exact main courses courses [] (fun c hc => hc) (fun p hp => by simp at hp)

theorem examLookup_mem {l : List (String × List ExamCourse)} {k : String}
    {v : List ExamCourse} (h : l.lookup k = some v) : (k, v) ∈ l := by
  induction l with
  | nil => simp [List.lookup] at h
  | cons q rest ih =>
      obtain ⟨a, b⟩ := q
      rw [List.lookup] at h
      by_cases hk : k == a
      · simp only [hk, if_true] at h
        injection h with h
        subst h
        have : k = a := by simpa using hk
        subst this
        exact List.mem_cons_self _ _
      · simp only [Bool.not_eq_true] at hk
        rw [hk] at h
        simp only at h
        exact List.mem_cons_of_mem _ (ih h)

theorem addExamGroup_keys (key : String) (c : ExamCourse) :
    ∀ groups : List (String × List ExamCourse),
      (addExamGroup groups key c).map Prod.fst =
        if key ∈ groups.map Prod.fst then groups.map Prod.fst
        else groups.map Prod.fst ++ [key] := by
  intro groups
  induction groups with
  | nil => simp [addExamGroup]
  | cons q rest ih =>
      obtain ⟨k, cs⟩ := q
      rw [addExamGroup]
      by_cases hk : k = key
      · subst hk
        simp [List.mem_cons]
      · rw [if_neg hk]
        simp only [List.map_cons, ih, List.mem_cons]
        by_cases hmem : key ∈ rest.map Prod.fst
        · simp [hmem, Ne.symm hk]
        · simp [hmem, Ne.symm hk]

theorem examGroupsOf_keys_nodup (courses : List ExamCourse) :
    ((examGroupsOf courses).map Prod.fst).Nodup := by
  unfold examGroupsOf
  have main : ∀ (l : List ExamCourse)
      (groups : List (String × List ExamCourse)),
      (groups.map Prod.fst).Nodup →
      ((l.foldl
        (fun gs c =>
          if examBranch c = "" then gs
          else addExamGroup gs (examGroupKeyOf c) c) groups).map
          Prod.fst).Nodup := by
    intro l
    induction l with
    | nil => intro groups h; exact h
    | cons c rest ih =>
        intro groups h
        rw [List.foldl_cons]
        apply ih
        by_cases hskip : examBranch c = ""
        · simp only [hskip, if_true]; exact h
        · simp only [hskip, if_false]
          rw [addExamGroup_keys]
          by_cases hmem : examGroupKeyOf c ∈ groups.map Prod.fst
          · rw [if_pos hmem]; exact h
          · rw [if_neg hmem]
            simp [List.nodup_append, h, hmem]
  exact main courses [] (by simp)

theorem insertExamKey_perm (x : String) :
    ∀ l : List String, List.Perm (insertExamKey x l) (x :: l) := by
  intro l
  induction l with
  | nil => exact List.Perm.refl _
  | cons y ys ih =>
      rw [insertExamKey]
      by_cases hc : examKeyLe x y = true
      · rw [if_pos hc]
      · rw [if_neg hc]
        exact (ih.cons y).trans (List.Perm.swap x y ys)

theorem sortExamKeys_perm :
    ∀ l : List String, List.Perm (sortExamKeys l) l := by
  intro l
  induction l with
  | nil => exact List.Perm.refl _
  | cons x xs ih =>
      rw [sortExamKeys]
      exact (insertExamKey_perm x (sortExamKeys xs)).trans (ih.cons x)

/-! ## Provenance of exam entries -/

/-- An entry produced by the scheduler: built by `mkExamEntry` from an
eligible course of the pool, a date of the list, and an allocation within
the room budget. -/
def EntryFrom (dates : List DateRec) (slot : String)
    (pool : List ExamCourse) (e : ExamEntry) : Prop :=
  ∃ c ∈ pool, ∃ d ∈ dates, ∃ pairs : List (String × String),
    pairs.length ≤ (jsOrNat c.students 60 + 39) / 40 ∧
    e = mkExamEntry slot (branchOfKey (examGroupKeyOf c)) c d
      (jsOrNat c.students 60) pairs

theorem groupFold_provenance {dates : List DateRec} {slot : String}
    {pool : List ExamCourse} (invigNames : List String)
    (rooms : List ExamRoom) (k : String) :
    ∀ (cs : List ExamCourse),
      (∀ c ∈ cs, c ∈ pool ∧ examGroupKeyOf c = k) →
      ∀ (acc : ExamState × Nat),
        (∀ e ∈ acc.1.schedule, EntryFrom dates slot pool e) →
        ∀ e ∈ ((cs.foldl
          (fun acc c => scheduleCourse invigNames rooms dates slot
            (branchOfKey k) c acc.1 acc.2) acc).1).schedule,
          EntryFrom dates slot pool e := by
  intro cs
  induction cs with
  | nil => intro _ acc hacc; exact hacc
  | cons c rest ih =>
      intro hcs acc hacc
      rw [List.foldl_cons]
      apply ih (fun c' hc' => hcs c' (List.mem_cons_of_mem _ hc'))
      obtain ⟨hcpool, hckey⟩ := hcs c (List.mem_cons_self _ _)
      by_cases h : acc.2 < dates.length
      · obtain ⟨pairs, isch, rsch, heq, _, _, _, hlen⟩ :=
          scheduleCourse_hit invigNames rooms dates slot (branchOfKey k) c
            acc.1 acc.2 h
        rw [heq]
        intro e he
        rcases List.mem_append.1 he with he' | he'
        · exact hacc e he'
        · rw [List.mem_singleton] at he'
          subst he'
          exact ⟨c, hcpool, dates.get ⟨acc.2, h⟩,
            List.get_mem dates acc.2 h, pairs, hlen, by rw [hckey]⟩
      · rw [scheduleCourse_skip invigNames rooms dates slot (branchOfKey k) c
          acc.1 acc.2 h]
        exact hacc

theorem examFold_provenance {dates : List DateRec} {slot : String}
    {pool : List ExamCourse} (invigNames : List String)
    (rooms : List ExamRoom) {groups : List (String × List ExamCourse)}
    (hwf : ExamGroupsWF pool groups) :
    ∀ (keys : List String) (st : ExamState),
      (∀ e ∈ st.schedule, EntryFrom dates slot pool e) →
      ∀ e ∈ (examFold invigNames rooms dates slot groups keys st).schedule,
        EntryFrom dates slot pool e := by
  intro keys
  induction keys with
  | nil => intro st h; exact h
  | cons k ks ih =>
      intro st h
      have hstep : examFold invigNames rooms dates slot groups (k :: ks) st =
          examFold invigNames rooms dates slot groups ks
            (match groups.lookup k with
             | some cs => processExamGroup invigNames rooms dates slot k cs st
             | none => st) := rfl
      rw [hstep]
      apply ih
      cases hlk : groups.lookup k with
      | none => exact h
      | some cs =>
          have hmem := examLookup_mem hlk
          exact groupFold_provenance invigNames rooms k cs
            (fun c hc => ⟨(hwf _ hmem c hc).2, (hwf _ hmem c hc).1.symm⟩)
            (st, 0) h

/-- Every entry of a successful `generateExamSchedule` run has scheduler
provenance: it comes from an eligible course of the input. -/
theorem generateExamSchedule_provenance {courses : List ExamCourse}
    {invigNames : List String} {rooms : List ExamRoom}
    {startDate endDate : String} {timeSlot1 timeSlot2 : Option String}
    {l : List ExamEntry}
    (h : generateExamSchedule courses invigNames rooms startDate endDate
      timeSlot1 timeSlot2 = Except.ok l) :
    ∃ dates slot, generateExamDates startDate endDate = Except.ok dates ∧
      ∀ e ∈ l, EntryFrom dates slot (examEligible courses) e := by
  unfold generateExamSchedule at h
  cases hd : generateExamDates startDate endDate with
  | error msg => rw [hd] at h; exact absurd h (by simp)
  | ok dates =>
      rw [hd] at h
      dsimp only at h
      split at h
      · exact absurd h (by simp)
      · injection h with h
        subst h
        exact ⟨dates, _, rfl,
          examFold_provenance _ _ (examGroupsOf_wf (examEligible courses)) _ _
            (fun e he => absurd he (List.not_mem_nil e))⟩

/-- C2 (amended): in every exam assignment the room list, the invigilator
list and the room–invigilator pair list have one common length, and that
length is at most `ceil(students / 40)` (`studentsPerRoom = 40`); it falls
short of the ceiling when too few rooms are free at the assignment's date
and slot, and invigilator names are not guaranteed unique across a
(date, slot) because the allocation fallback reuses names without reserving
them. -/
theorem c2_exam_room_allocation (courses : List ExamCourse)
    (invigNames : List String) (rooms : List ExamRoom)
    (startDate endDate : String) (timeSlot1 timeSlot2 : Option String)
    (l : List ExamEntry)
    (h : generateExamSchedule courses invigNames rooms startDate endDate
      timeSlot1 timeSlot2 = Except.ok l) :
    ∀ e ∈ l, e.rooms.length = e.invigilators.length ∧
      e.pairs.length = e.rooms.length ∧
      e.rooms.length ≤ (e.students + 39) / 40 := by
  obtain ⟨dates, slot, hd, hprov⟩ := generateExamSchedule_provenance h
  intro e he
  obtain ⟨c, hc, d, hdmem, pairs, hlen, rfl⟩ := hprov e he
  unfold mkExamEntry
  simp only [List.length_map]
  exact ⟨trivial, trivial, hlen⟩

/-- C2 counterexample: with two rooms and a single invigilator, the B-group
course of 80 students is pushed with 1 allocated room instead of
`ceil(80 / 40) = 2` (one room was taken by the A-group exam at the same
date and slot), and the invigilator `"I"` is assigned to both assignments
at that same date and slot. -/
theorem c2_exam_room_allocation_counterexample :
    ∃ l, generateExamSchedule twoGroupCourses ["I"] twoRooms
      "2025-11-20" "2025-11-20" (some "09:00 - 12:00") none = Except.ok l ∧
    (∃ e ∈ l, e.rooms.length ≠ (e.students + 39) / 40) ∧
    (∃ e1 ∈ l, ∃ e2 ∈ l, e1 ≠ e2 ∧ e1.date = e2.date ∧
      e1.timeSlot = e2.timeSlot ∧
      ∃ n, n ∈ e1.invigilators ∧ n ∈ e2.invigilators) := by
  refine ⟨_, rfl, ?_, ?_⟩ <;> decide

/-- A concrete run of the amended C2 theorem on the two-group input. -/
theorem c2_exam_room_allocation_witness :
    ∃ l, generateExamSchedule twoGroupCourses ["I"] twoRooms
      "2025-11-20" "2025-11-20" (some "09:00 - 12:00") none = Except.ok l ∧
    ∀ e ∈ l, e.rooms.length = e.invigilators.length ∧
      e.pairs.length = e.rooms.length ∧
      e.rooms.length ≤ (e.students + 39) / 40 :=
  ⟨_, rfl, c2_exam_room_allocation twoGroupCourses ["I"] twoRooms
    "2025-11-20" "2025-11-20" (some "09:00 - 12:00") none _ rfl⟩

/-- C9 (amended): every exam assignment refers to an input course whose type
does not contain `'lab'` case-insensitively; courses of any other type —
`"Theory"` or not — pass the filter and may appear in the output. -/
theorem c9_exam_type_filter (courses : List ExamCourse)
    (invigNames : List String) (rooms : List ExamRoom)
    (startDate endDate : String) (timeSlot1 timeSlot2 : Option String)
    (l : List ExamEntry)
    (h : generateExamSchedule courses invigNames rooms startDate endDate
      timeSlot1 timeSlot2 = Except.ok l) :
    ∀ e ∈ l, ∃ c ∈ courses,
      strIncludes (jsToLower (c.type.getD "")) "lab" = false ∧
      e.courseCode = jsOrStr c.code "N/A" ∧
      e.courseName = jsOrStr c.name "Unnamed Course" ∧
      e.students = jsOrNat c.students 60 := by
  obtain ⟨dates, slot, hd, hprov⟩ := generateExamSchedule_provenance h
  intro e he
  obtain ⟨c, hc, d, hdmem, pairs, hlen, rfl⟩ := hprov e he
  obtain ⟨hcc, hfilt⟩ := List.mem_filter.1 hc
  rw [Bool.not_eq_true'] at hfilt
  exact ⟨c, hcc, hfilt, rfl, rfl, rfl⟩

/-- The non-Theory, non-lab course of the C9 counterexample. -/
def seminarCourse : ExamCourse :=
  { code := some "S1", name := some "Sem", faculty := none,
    type := some "Seminar", branch := some "A", year := some 1,
    students := some 40, credits := some 2 }

/-- C9 counterexample: a course whose type is `"Seminar"` — not `"Theory"` —
is scheduled: the output contains its assignment, because the source filter
only excludes types containing `'lab'`. -/
theorem c9_exam_type_filter_counterexample :
    ∃ l, generateExamSchedule [seminarCourse] ["I"] [⟨"R1"⟩]
      "2025-11-20" "2025-11-20" (some "09:00 - 12:00") none = Except.ok l ∧
    seminarCourse.type = some "Seminar" ∧
    (∃ e ∈ l, e.courseCode = "S1") := by
  refine ⟨_, rfl, rfl, ?_⟩
  decide

/-- A concrete run of the amended C9 theorem on the seminar input. -/
theorem c9_exam_type_filter_witness :
    ∃ l, generateExamSchedule [seminarCourse] ["I"] [⟨"R1"⟩]
      "2025-11-20" "2025-11-20" (some "09:00 - 12:00") none = Except.ok l ∧
    ∀ e ∈ l, ∃ c ∈ [seminarCourse],
      strIncludes (jsToLower (c.type.getD "")) "lab" = false ∧
      e.courseCode = jsOrStr c.code "N/A" ∧
      e.courseName = jsOrStr c.name "Unnamed Course" ∧
      e.students = jsOrNat c.students 60 :=
  ⟨_, rfl, c9_exam_type_filter [seminarCourse] ["I"] [⟨"R1"⟩]
    "2025-11-20" "2025-11-20" (some "09:00 - 12:00") none _ rfl⟩

/-! ## One exam date per branch-year group -/

/-- Splitting a `${branch}-Year${year}` key at `'-'` recovers a dash-free
branch as the first component. -/
theorem branchOfKey_groupKey (b : String) (y : Nat) (hb : dashFree b) :
    branchOfKey (b ++ "-Year" ++ jsNat y) = b := by
  unfold branchOfKey
  have hdata : (b ++ "-Year" ++ jsNat y).data =
      b.data ++ '-' :: ('Y' :: 'e' :: 'a' :: 'r' :: (jsNat y).data) := by
    rw [str_data_append, str_data_append]
    have hy : ("-Year" : String).data = ['-', 'Y', 'e', 'a', 'r'] := rfl
    rw [hy, List.append_assoc]
    rfl
  rw [hdata, splitDash_append _ _ hb]

/-- The branch-year key reconstructed from an entry's recorded fields. -/
def entryExamKey (e : ExamEntry) : String :=
  e.branch ++ "-Year" ++ jsNat e.year

theorem entryExamKey_mk (slot : String) (c : ExamCourse) (d : DateRec)
    (n : Nat) (pairs : List (String × String))
    (hb : dashFree (examBranch c)) :
    entryExamKey (mkExamEntry slot (branchOfKey (examGroupKeyOf c)) c d n
      pairs) = examGroupKeyOf c := by
  unfold entryExamKey mkExamEntry examGroupKeyOf
  dsimp only
  rw [branchOfKey_groupKey _ _ hb]
  rfl

theorem groupFold_inv3 {dates : List DateRec} {slot : String}
    (hwf : DatesWF dates) (invigNames : List String) (rooms : List ExamRoom)
    (k : String) :
    ∀ (cs : List ExamCourse),
      (∀ c ∈ cs, examGroupKeyOf c = k ∧ dashFree (examBranch c)) →
      ∀ (st : ExamState) (idx : Nat),
        ∃ E, ((cs.foldl
          (fun acc c => scheduleCourse invigNames rooms dates slot
            (branchOfKey k) c acc.1 acc.2) (st, idx)).1).schedule =
          st.schedule ++ E ∧
        (∀ e ∈ E, entryExamKey e = k ∧
          ∃ i, idx ≤ i ∧ ∃ hi : i < dates.length,
            e.date = (dates.get ⟨i, hi⟩).displayDate) ∧
        E.Pairwise (fun e1 e2 => e1.date ≠ e2.date) := by
  intro cs
  induction cs with
  | nil =>
      intro _ st idx
      exact ⟨[], by simp, by simp, List.Pairwise.nil⟩
  | cons c rest ih =>
      intro hcs st idx
      rw [List.foldl_cons]
      obtain ⟨hk, hb⟩ := hcs c (List.mem_cons_self _ _)
      by_cases h : idx < dates.length
      · obtain ⟨pairs, isch, rsch, heq, _, _, _, _⟩ :=
          scheduleCourse_hit invigNames rooms dates slot (branchOfKey k) c
            st idx h
        rw [heq]
        obtain ⟨E, hE, hmemE, hpairE⟩ :=
          ih (fun c' hc' => hcs c' (List.mem_cons_of_mem _ hc'))
            { schedule := st.schedule ++ [mkExamEntry slot (branchOfKey k) c
                (dates.get ⟨idx, h⟩) (jsOrNat c.students 60) pairs]
              invigSched := isch
              roomSched := rsch } (idx + 1)
        refine ⟨mkExamEntry slot (branchOfKey k) c (dates.get ⟨idx, h⟩)
          (jsOrNat c.students 60) pairs :: E, ?_, ?_, ?_⟩
        · rw [hE]
          simp
        · intro e he
          rcases List.mem_cons.1 he with rfl | he'
          · refine ⟨?_, idx, Nat.le_refl _, h, rfl⟩
            rw [← hk] at *
            exact entryExamKey_mk slot c (dates.get ⟨idx, h⟩)
              (jsOrNat c.students 60) pairs hb
          · obtain ⟨hkey, i, hle, hi, hdate⟩ := hmemE e he'
            exact ⟨hkey, i, by omega, hi, hdate⟩
        · refine List.Pairwise.cons ?_ hpairE
          intro e he
          obtain ⟨_, i, hle, hi, hdate⟩ := hmemE e he
          rw [hdate]
          exact hwf.get_display_ne h hi (by omega)
      · rw [scheduleCourse_skip invigNames rooms dates slot (branchOfKey k) c
          st idx h]
        exact ih (fun c' hc' => hcs c' (List.mem_cons_of_mem _ hc')) st idx

/-- The cross-group invariant: every entry's reconstructed key belongs to
the processed keys, and entries with equal reconstructed keys sit on
distinct dates. -/
def Inv3 (doneKeys : List String) (st : ExamState) : Prop :=
  (∀ e ∈ st.schedule, entryExamKey e ∈ doneKeys) ∧
  st.schedule.Pairwise
    (fun e1 e2 => entryExamKey e1 = entryExamKey e2 → e1.date ≠ e2.date)

theorem inv3_mono {d1 d2 : List String} (hsub : ∀ x ∈ d1, x ∈ d2)
    {st : ExamState} (h : Inv3 d1 st) : Inv3 d2 st :=
  ⟨fun e he => hsub _ (h.1 e he), h.2⟩

theorem examFold_inv3 {dates : List DateRec} {slot : String}
    (hwf : DatesWF dates) (invigNames : List String) (rooms : List ExamRoom)
    {groups : List (String × List ExamCourse)}
    (hgwf : ∀ p ∈ groups, ∀ c ∈ p.2,
      p.1 = examGroupKeyOf c ∧ dashFree (examBranch c)) :
    ∀ (keys : List String), keys.Nodup →
      ∀ (doneKeys : List String) (st : ExamState),
        (∀ kk ∈ keys, kk ∉ doneKeys) → Inv3 doneKeys st →
        Inv3 (doneKeys ++ keys)
          (examFold invigNames rooms dates slot groups keys st) := by
  intro keys
  induction keys with
  | nil => intro _ doneKeys st _ h; simpa using h
  | cons k ks ih =>
      intro hnodup doneKeys st hfresh hinv
      obtain ⟨hknotin, hksnodup⟩ := List.nodup_cons.1 hnodup
      have hstep : examFold invigNames rooms dates slot groups (k :: ks) st =
          examFold invigNames rooms dates slot groups ks
            (match groups.lookup k with
             | some cs => processExamGroup invigNames rooms dates slot k cs st
             | none => st) := rfl
      rw [hstep]
      have hnext : Inv3 (doneKeys ++ [k])
          (match groups.lookup k with
           | some cs => processExamGroup invigNames rooms dates slot k cs st
           | none => st) := by
        cases hlk : groups.lookup k with
        | none =>
            exact inv3_mono (fun x hx => List.mem_append_left _ hx) hinv
        | some cs =>
            have hmem := examLookup_mem hlk
            obtain ⟨E, hE, hmemE, hpairE⟩ := groupFold_inv3 hwf invigNames
              rooms k cs
              (fun c hc => ⟨(hgwf _ hmem c hc).1.symm, (hgwf _ hmem c hc).2⟩)
              st 0
            unfold processExamGroup
            constructor
            · intro e he
              rw [hE] at he
              rcases List.mem_append.1 he with he' | he'
              · exact List.mem_append_left _ (hinv.1 e he')
              · rw [(hmemE e he').1]
                exact List.mem_append_right _ (List.mem_singleton.mpr rfl)
            · rw [hE]
              refine List.pairwise_append.mpr ⟨hinv.2, ?_, ?_⟩
              · refine List.Pairwise.imp ?_ hpairE
                intro a b hne hkeq
                exact hne
              intro e1 he1 e2 he2 hkeq
              exfalso
              have h1 := hinv.1 e1 he1
              rw [hkeq, (hmemE e2 he2).1] at h1
              exact hfresh k (List.mem_cons_self _ _) h1
      have hrest := ih hksnodup (doneKeys ++ [k]) _
        (fun kk hkk => by
          rw [List.mem_append]
          rintro (hin | hin)
          · exact hfresh kk (List.mem_cons_of_mem _ hkk) hin
          · rw [List.mem_singleton] at hin
            subst hin
            exact hknotin hkk)
        hnext
      refine inv3_mono ?_ hrest
      intro x hx
      rw [List.mem_append, List.mem_append] at hx
      rw [List.mem_append, List.mem_cons]
      rcases hx with (hx | hx) | hx
      · exact Or.inl hx
      · rw [List.mem_singleton] at hx
        exact Or.inr (Or.inl hx)
      · exact Or.inr (Or.inr hx)

/-- C3: two exam assignments of the same branch-year group never share a
calendar date (proved for dash-free branch names, which make the recorded
branch identify the group), while assignments of distinct groups may share
a date and a slot, as a concrete run shows. -/
theorem c3_group_date_uniqueness :
    (∀ (courses : List ExamCourse) (invigNames : List String)
      (rooms : List ExamRoom) (startDate endDate : String)
      (timeSlot1 timeSlot2 : Option String) (l : List ExamEntry),
      (∀ c ∈ courses, dashFree (examBranch c)) →
      generateExamSchedule courses invigNames rooms startDate endDate
        timeSlot1 timeSlot2 = Except.ok l →
      l.Pairwise (fun e1 e2 => e1.branch = e2.branch → e1.year = e2.year →
        e1.date ≠ e2.date)) ∧
    (∃ l, generateExamSchedule twoGroupCourses ["I", "J"] twoRooms
      "2025-11-20" "2025-11-20" (some "09:00 - 12:00") none = Except.ok l ∧
      ∃ e1 ∈ l, ∃ e2 ∈ l, ¬ (e1.branch = e2.branch ∧ e1.year = e2.year) ∧
        e1.date = e2.date ∧ e1.timeSlot = e2.timeSlot) := by
  constructor
  · intro courses invigNames rooms sd ed t1 t2 l hdf h
    unfold generateExamSchedule at h
    cases hd : generateExamDates sd ed with
    | error msg => rw [hd] at h; exact absurd h (by simp)
    | ok dates =>
        rw [hd] at h
        dsimp only at h
        split at h
        · exact absurd h (by simp)
        · injection h with h
          subst h
          have hwf := generateExamDates_wf hd
          have hsorted : (sortExamKeys
              ((examGroupsOf (examEligible courses)).map Prod.fst)).Nodup :=
            ((sortExamKeys_perm _).nodup_iff).mpr
              (examGroupsOf_keys_nodup (examEligible courses))
          have hgwf : ∀ p ∈ examGroupsOf (examEligible courses), ∀ c ∈ p.2,
              p.1 = examGroupKeyOf c ∧ dashFree (examBranch c) := by
            intro p hp c hc
            have hw := examGroupsOf_wf (examEligible courses) p hp c hc
            exact ⟨hw.1, hdf c (List.mem_filter.1 hw.2).1⟩
          have hfin := @examFold_inv3 dates
            (((examTimes t1 t2).headD ("09:00 - 12:00", "Morning Session")).1)
            hwf invigNames rooms (examGroupsOf (examEligible courses)) hgwf
            (sortExamKeys ((examGroupsOf (examEligible courses)).map
              Prod.fst)) hsorted []
            { schedule := [], invigSched := [], roomSched := [] }
            (fun kk _ hk => List.not_mem_nil kk hk)
            ⟨fun e he => absurd he (List.not_mem_nil e), List.Pairwise.nil⟩
          refine List.Pairwise.imp ?_ hfin.2
          intro e1 e2 hcond hbr hyr
          apply hcond
          unfold entryExamKey
          rw [hbr, hyr]
  · refine ⟨_, rfl, ?_⟩
    decide

/-- A concrete run of the C3 theorem: the dash-free hypothesis holds on the
two-group input and the within-group date-uniqueness follows. -/
theorem c3_group_date_uniqueness_witness :
    (∀ c ∈ twoGroupCourses, dashFree (examBranch c)) ∧
    ∃ l, generateExamSchedule twoGroupCourses ["I"] twoRooms
      "2025-11-20" "2025-11-20" (some "09:00 - 12:00") none = Except.ok l ∧
    l.Pairwise (fun e1 e2 => e1.branch = e2.branch → e1.year = e2.year →
      e1.date ≠ e2.date) :=
  ⟨by decide, _, rfl, c3_group_date_uniqueness.1 twoGroupCourses ["I"]
    twoRooms "2025-11-20" "2025-11-20" (some "09:00 - 12:00") none _
    (by decide) rfl⟩

end TimetableGen
